import Mathlib

/-!
Verification of the Fortran dependency scanner (waflib/Tools/fc_scan.py).

The development embeds, faithfully to the Python source:
- the three statement-extraction regular expressions (`INC_REGEX`,
  `USE_REGEX`, `MOD_REGEX`, compiled with `re.I | re.M`) together with
  the `re.findall` scanning semantics, via a small backtracking matcher
  over an explicit pattern syntax (all quantifiers in the three source
  patterns range over single-character classes, so the matcher is a
  plain structural recursion);
- the `fortran_parser` traversal state (`seen`, `nodes`, `names`,
  `waiting`) and its methods `find_deps`, `iter`, `tryfind_header`,
  `cached_find_resource` and the `start` worklist loop, as explicit
  state-passing functions over an abstract node type;
- the two memoization caches attached to the session context.

Characters are treated at ASCII level (the scanner's inputs are Fortran
source text); `re.I` case folding and the `\w`/`\s` classes are embedded
with their ASCII meaning.
-/

namespace FcScan

/-- ASCII case folding used to embed the `re.I` flag: the code point of a
character with upper-case letters mapped to lower case. -/
def toLowerNat (c : Char) : Nat :=
  if 65 ≤ c.toNat ∧ c.toNat ≤ 90 then c.toNat + 32 else c.toNat

/-- Case-insensitive character comparison (the `re.I` flag). -/
def eqI (a b : Char) : Bool := toLowerNat a == toLowerNat b

/-- The regex class `\s` (ASCII): space, tab, newline, carriage return,
vertical tab, form feed. -/
def isSpaceC (c : Char) : Bool :=
  decide (c.toNat = 32 ∨ c.toNat = 9 ∨ c.toNat = 10 ∨ c.toNat = 13 ∨ c.toNat = 11 ∨ c.toNat = 12)

/-- The regex class `\w` (ASCII): digits, letters, underscore. -/
def isWordC (c : Char) : Bool :=
  decide ((48 ≤ c.toNat ∧ c.toNat ≤ 57) ∨ (65 ≤ c.toNat ∧ c.toNat ≤ 90) ∨
          (97 ≤ c.toNat ∧ c.toNat ≤ 122) ∨ c.toNat = 95)

/-- The regex metacharacter `.` without `DOTALL`: anything but a newline. -/
def isDot (c : Char) : Bool := decide (¬ c.toNat = 10)

/-- The class `["'>]` (also written `['">]`) of the include pattern:
double quote (34), single quote (39), greater-than (62). -/
def isQuoteEnd (c : Char) : Bool := decide (c.toNat = 34 ∨ c.toNat = 39 ∨ c.toNat = 62)

/-- The class `[<"']` of the include pattern: less-than (60), double
quote (34), single quote (39). -/
def isQuoteBeg (c : Char) : Bool := decide (c.toNat = 60 ∨ c.toNat = 34 ∨ c.toNat = 39)

/-- Pattern syntax: the fragment of Python regexes used by the three
scanner patterns.  Quantifiers (`*`, `+`, lazy `+?`) only ever apply to
single-character classes in those patterns, which is what the
constructors provide. -/
inductive RE where
  | eps
  | lit (c : Char)
  | cls (p : Char → Bool)
  | cat (a b : RE)
  | alt (a b : RE)
  | starG (p : Char → Bool)
  | plusG (p : Char → Bool)
  | plusL (p : Char → Bool)
  | bol
  | nlook (a : RE)
  | look (a : RE)
  | grp (a : RE)

/-- Greedy `?` on a subpattern. -/
def opt (r : RE) : RE := .alt r .eps

/-- A literal word, one case-insensitive character at a time. -/
def litStr : List Char → RE
  | [] => .eps
  | c :: cs => .cat (.lit c) (litStr cs)

/-- A match outcome: the last character consumed so far (`none` at the
very start of the subject), the remaining input, and the text of the
capturing group if the group participated. -/
abbrev MOut := Option Char × List Char × Option (List Char)

/-- Backtracking alternatives of a greedy class star, longest match
first (each entry: last consumed character and remaining input). -/
def starResults (p : Char → Bool) : Option Char → List Char → List (Option Char × List Char)
  | prev, [] => [(prev, [])]
  | prev, a :: rest =>
    if p a then starResults p (some a) rest ++ [(prev, a :: rest)]
    else [(prev, a :: rest)]

/-- Backtracking alternatives of a greedy class plus, longest first. -/
def plusGResults (p : Char → Bool) : Option Char → List Char → List (Option Char × List Char)
  | _, [] => []
  | _, a :: rest => if p a then starResults p (some a) rest else []

/-- Backtracking alternatives of a lazy class plus, shortest first. -/
def plusLResults (p : Char → Bool) : Option Char → List Char → List (Option Char × List Char)
  | _, [] => []
  | _, a :: rest => if p a then (some a, rest) :: plusLResults p (some a) rest else []

/-- All ways the pattern can match a prefix of the input at the current
position, in backtracking priority order.  `prev` is the character just
before the current position (`none` at the start of the subject), used
by the multi-line `^` anchor. -/
def run : RE → Option Char → List Char → List MOut
  | .eps, prev, s => [(prev, s, none)]
  | .lit _, _, [] => []
  | .lit c, _, a :: rest => if eqI a c then [(some a, rest, none)] else []
  | .cls _, _, [] => []
  | .cls p, _, a :: rest => if p a then [(some a, rest, none)] else []
  | .cat r₁ r₂, prev, s =>
    (run r₁ prev s).flatMap fun o₁ =>
      (run r₂ o₁.1 o₁.2.1).map fun o₂ => (o₂.1, o₂.2.1, o₁.2.2.orElse fun _ => o₂.2.2)
  | .alt r₁ r₂, prev, s => run r₁ prev s ++ run r₂ prev s
  | .starG p, prev, s => (starResults p prev s).map fun o => (o.1, o.2, none)
  | .plusG p, prev, s => (plusGResults p prev s).map fun o => (o.1, o.2, none)
  | .plusL p, prev, s => (plusLResults p prev s).map fun o => (o.1, o.2, none)
  | .bol, prev, s =>
    match prev with
    | none => [(none, s, none)]
    | some c => if c.toNat = 10 then [(some c, s, none)] else []
  | .nlook r, prev, s => if (run r prev s).isEmpty then [(prev, s, none)] else []
  | .look r, prev, s => if (run r prev s).isEmpty then [] else [(prev, s, none)]
  | .grp r, prev, s =>
    (run r prev s).map fun o => (o.1, o.2.1, some (s.take (s.length - o.2.1.length)))

/-- `INC_REGEX = (?:^|['">]\s*;)\s*(?:|#\s*)INCLUDE\s+(?:\w+_)?[<"'](.+?)(?=["'>])`,
compiled with `re.I | re.M`. -/
def re_inc : RE :=
  .cat (.alt .bol (.cat (.cls isQuoteEnd) (.cat (.starG isSpaceC) (.lit ';'))))
  (.cat (.starG isSpaceC)
  (.cat (.alt .eps (.cat (.lit '#') (.starG isSpaceC)))
  (.cat (litStr "INCLUDE".data)
  (.cat (.plusG isSpaceC)
  (.cat (opt (.cat (.plusG isWordC) (.lit '_')))
  (.cat (.cls isQuoteBeg)
  (.cat (.grp (.plusL isDot))
        (.look (.cls isQuoteEnd)))))))))

/-- The shared suffix `(?:\s+|(?:(?:\s*,\s*(?:NON_)?INTRINSIC)?\s*::))` of
the use and module patterns. -/
def qualTail : RE :=
  .alt (.plusG isSpaceC)
       (.cat (opt (.cat (.starG isSpaceC) (.cat (.lit ',') (.cat (.starG isSpaceC)
                 (.cat (opt (litStr "NON_".data)) (litStr "INTRINSIC".data))))))
             (.cat (.starG isSpaceC) (litStr "::".data)))

/-- `USE_REGEX = (?:^|;)\s*USE(?:\s+|(?:(?:\s*,\s*(?:NON_)?INTRINSIC)?\s*::))\s*(\w+)`,
compiled with `re.I | re.M`. -/
def re_use : RE :=
  .cat (.alt .bol (.lit ';'))
  (.cat (.starG isSpaceC)
  (.cat (litStr "USE".data)
  (.cat qualTail
  (.cat (.starG isSpaceC)
        (.grp (.plusG isWordC))))))

/-- `MOD_REGEX = (?:^|;)\s*MODULE(?!\s*PROCEDURE)(?:\s+|(?:(?:\s*,\s*(?:NON_)?INTRINSIC)?\s*::))\s*(\w+)`,
compiled with `re.I | re.M`. -/
def re_mod : RE :=
  .cat (.alt .bol (.lit ';'))
  (.cat (.starG isSpaceC)
  (.cat (litStr "MODULE".data)
  (.cat (.nlook (.cat (.starG isSpaceC) (litStr "PROCEDURE".data)))
  (.cat qualTail
  (.cat (.starG isSpaceC)
        (.grp (.plusG isWordC)))))))

/-- One `re.findall` scan: at each position try a match; on success
record the group capture and continue at the match end (advancing one
character on an empty match, as Python does); on failure advance one
character.  Fuel is at least the input length plus one, which the
wrapper supplies. -/
def findallAux (r : RE) : Nat → Option Char → List Char → List (List Char)
  | 0, _, _ => []
  | fuel + 1, prev, s =>
    match (run r prev s).head? with
    | some (p, s', g) =>
      let cap := g.getD []
      if s'.length = s.length then
        match s with
        | [] => [cap]
        | a :: rest => cap :: findallAux r fuel (some a) rest
      else cap :: findallAux r fuel p s'
    | none =>
      match s with
      | [] => []
      | a :: rest => findallAux r fuel (some a) rest

/-- `re.findall(pattern, txt)` for a pattern with exactly one capturing
group: the list of group captures of the non-overlapping matches. -/
def findall (r : RE) (txt : String) : List String :=
  (findallAux r (txt.data.length + 1) none txt.data).map fun l => String.mk l

/-- `DEPS_CACHE_SIZE = 100000`. -/
def DEPS_CACHE_SIZE : Nat := 100000

/-- `FILE_CACHE_SIZE = 100000`. -/
def FILE_CACHE_SIZE : Nat := 100000

/-- The `Deps` named tuple: captured include filenames, used module
names and provided module names of one file. -/
structure Deps where
  incs : List String
  uses : List String
  mods : List String
deriving DecidableEq, Repr

/-- The `Deps(...)` construction inside `find_deps`: run the three
patterns over the file text. -/
def extractDeps (txt : String) : Deps :=
  { incs := findall re_inc txt, uses := findall re_use txt, mods := findall re_mod txt }

/-- Modelled from the spec: `Utils.lru_cache` (the waflib Utils module is
not part of the sources under verification).  A bounded cache with
least-recently-used eviction: an association list kept in recency order,
most recent first.  Lookup of a present key moves its entry to the
front; insertion puts the new entry at the front and truncates to the
capacity. -/
def lruLookup [DecidableEq K] : List (K × V) → K → Option V
  | [], _ => none
  | (k', v) :: rest, k => if k = k' then some v else lruLookup rest k

/-- Modelled from the spec: the `lru_cache` read operation — on a hit,
the stored value together with the cache refreshed so that the key is
now most recent. -/
def lruGet [DecidableEq K] (c : List (K × V)) (k : K) : Option (V × List (K × V)) :=
  match lruLookup c k with
  | none => none
  | some v => some (v, (k, v) :: c.filter fun p => !decide (p.1 = k))

/-- Modelled from the spec: the `lru_cache` write operation — the new
entry becomes most recent and the least recent entries beyond the
capacity are evicted. -/
def lruInsert [DecidableEq K] (cap : Nat) (c : List (K × V)) (k : K) (v : V) : List (K × V) :=
  ((k, v) :: c.filter fun p => !decide (p.1 = k)).take cap

/-- The external collaborators of the scanner: `node.read()` (with
`none` standing for a raised I/O error) and `node.find_resource(name)`
(with `none` the normal not-found outcome).  `N` is the opaque node
identity of the build system. -/
structure World (N : Type) where
  read : N → Option String
  find_resource : N → String → Option N

/-- The mutable state of one `fortran_parser` together with the two
session caches it reaches through `node.ctx`.  The Python `seen` set
holds both nodes and filename strings; since a node and a string never
compare equal, it is split into its two typed parts `seenN` and
`seenS`.  `reads` and `probes` are ghost logs of the collaborator
invocations (each `node.read()` call and each `node.find_resource`
call), and `submitted`/`scheduled` are ghost logs of the nodes passed to
`find_deps` and the filenames passed to `tryfind_header`. -/
structure PState (N : Type) where
  seenN : List N
  seenS : List String
  nodes : List N
  names : List String
  waiting : List N
  depsCache : List (N × Deps)
  nodeCache : List ((N × String) × Option N)
  reads : List N
  probes : List (N × String)
  submitted : List N
  scheduled : List String
deriving DecidableEq, Repr

/-- `fortran_parser.find_deps`: return the cached `Deps` of the node, or
read the file, run the three patterns, store and return the result.  A
failing read raises, carrying the state at the raise point. -/
def find_deps [DecidableEq N] (w : World N) (node : N) (st : PState N) :
    Except (N × PState N) (Deps × PState N) :=
  match lruGet st.depsCache node with
  | some (d, c') => .ok (d, { st with depsCache := c' })
  | none =>
    match w.read node with
    | none => .error (node, st)
    | some txt =>
      let d := extractDeps txt
      .ok (d, { st with depsCache := lruInsert DEPS_CACHE_SIZE st.depsCache node d,
                        reads := st.reads ++ [node] })

/-- `fortran_parser.cached_find_resource`: the memoized
`node.find_resource(filename)` probe, keyed by the (directory, filename)
pair; negative outcomes are cached too. -/
def cached_find_resource [DecidableEq N] (w : World N) (dir : N) (filename : String)
    (st : PState N) : Option N × PState N :=
  match lruGet st.nodeCache (dir, filename) with
  | some (v, c') => (v, { st with nodeCache := c' })
  | none =>
    let ret := w.find_resource dir filename
    (ret, { st with nodeCache := lruInsert FILE_CACHE_SIZE st.nodeCache (dir, filename) ret,
                    probes := st.probes ++ [(dir, filename)] })

/-- The loop body of `fortran_parser.tryfind_header`: probe the include
directories in order; on the first hit append the node to `nodes` and
`waiting` and stop; if no directory matches, append the bare filename to
`names` unless already present. -/
def tryfindGo [DecidableEq N] (w : World N) (filename : String) :
    List N → PState N → PState N
  | [], st =>
    if filename ∈ st.names then st else { st with names := st.names ++ [filename] }
  | d :: rest, st =>
    let pr := cached_find_resource w d filename st
    match pr.1 with
    | some n => { pr.2 with nodes := pr.2.nodes ++ [n], waiting := pr.2.waiting ++ [n] }
    | none => tryfindGo w filename rest pr.2

/-- `fortran_parser.tryfind_header`. -/
def tryfind_header [DecidableEq N] (w : World N) (ips : List N) (filename : String)
    (st : PState N) : PState N :=
  tryfindGo w filename ips st

/-- The include-filename loop body of `fortran_parser.iter`: skip
filenames already seen, otherwise mark them seen and call
`tryfind_header`. -/
def procInc [DecidableEq N] (w : World N) (ips : List N) (st : PState N) (x : String) :
    PState N :=
  if x ∈ st.seenS then st
  else
    tryfind_header w ips x
      { st with seenS := st.seenS ++ [x], scheduled := st.scheduled ++ [x] }

/-- The used-modules loop body of `fortran_parser.iter`: append the
tagged name `USE@x` unless already present. -/
def procUse (N : Type) (st : PState N) (x : String) : PState N :=
  let name := "USE@" ++ x
  if name ∈ st.names then st else { st with names := st.names ++ [name] }

/-- The provided-modules loop body of `fortran_parser.iter`: append the
tagged name `MOD@x` unless already present. -/
def procMod (N : Type) (st : PState N) (x : String) : PState N :=
  let name := "MOD@" ++ x
  if name ∈ st.names then st else { st with names := st.names ++ [name] }

/-- `fortran_parser.iter`: process one node — return unchanged if seen,
otherwise extract its dependencies (a failing read propagates), mark the
node seen, then fold the three capture lists into the state. -/
def iter [DecidableEq N] (w : World N) (ips : List N) (node : N) (st : PState N) :
    Except (N × PState N) (PState N) :=
  if node ∈ st.seenN then .ok st
  else
    match find_deps w node { st with submitted := st.submitted ++ [node] } with
    | .error e => .error e
    | .ok (deps, st₁) =>
      let st₂ := { st₁ with seenN := st₁.seenN ++ [node] }
      let st₃ := deps.incs.foldl (procInc w ips) st₂
      let st₄ := deps.uses.foldl (procUse N) st₃
      let st₅ := deps.mods.foldl (procMod N) st₄
      .ok st₅

/-- Outcome of the `start` worklist loop: traversal finished, fuel ran
out with a non-empty worklist, or a read raised an I/O error. -/
inductive ScanRes (N : Type) where
  | done (st : PState N)
  | fuelOut (st : PState N)
  | ioErr (n : N) (st : PState N)
deriving DecidableEq

/-- The `while self.waiting` loop of `fortran_parser.start`: pop the
front node and run `iter` on it, with explicit fuel (the source loop has
no fuel; termination for finite worlds is proved below). -/
def runLoop [DecidableEq N] (w : World N) (ips : List N) : Nat → PState N → ScanRes N
  | fuel, st =>
    match st.waiting with
    | [] => .done st
    | nd :: rest =>
      match fuel with
      | 0 => .fuelOut st
      | fuel' + 1 =>
        match iter w ips nd { st with waiting := rest } with
        | .error e => .ioErr e.1 e.2
        | .ok st' => runLoop w ips fuel' st'

/-- The fresh per-call state of `fortran_parser.__init__` followed by
`start`: empty collections, the session caches as given, and the root
node on the worklist. -/
def initState (N : Type) (depsCache : List (N × Deps))
    (nodeCache : List ((N × String) × Option N)) (root : N) : PState N :=
  { seenN := [], seenS := [], nodes := [], names := [], waiting := [root],
    depsCache := depsCache, nodeCache := nodeCache,
    reads := [], probes := [], submitted := [], scheduled := [] }

/-- First-match-wins resolution over the include directories: the pure
outcome of the `tryfind_header` probe loop when the resolution cache
agrees with the `find_resource` collaborator. -/
def firstResolve (w : World N) : List N → String → Option N
  | [], _ => none
  | d :: rest, f =>
    match w.find_resource d f with
    | some n => some n
    | none => firstResolve w rest f

/-- The resolution cache only ever holds what the directory-lookup
collaborator returned for the key. -/
def nodeCacheOK [DecidableEq N] (w : World N) (st : PState N) : Prop :=
  ∀ d f v, lruLookup st.nodeCache (d, f) = some v → v = w.find_resource d f

/-- The dependency cache only ever holds the extraction of the file's
text. -/
def depsCacheOK [DecidableEq N] (w : World N) (st : PState N) : Prop :=
  ∀ n d, lruLookup st.depsCache n = some d → ∃ txt, w.read n = some txt ∧ d = extractDeps txt

/-- The final state carried by a scan outcome. -/
def resSt : ScanRes N → PState N
  | .done st => st
  | .fuelOut st => st
  | .ioErr _ st => st

/-- Whether a scan outcome is a completed traversal. -/
def isDone : ScanRes N → Bool
  | .done _ => true
  | .fuelOut _ => false
  | .ioErr _ _ => false

/-- Example world over `Nat` nodes: the root file 0 declares an include
of the literal filename `USE@x` (which no directory resolves) and a use
of module `x`. -/
def w1 : World Nat :=
  { read := fun n => if n = 0 then some "include <USE@x>\nuse x" else some "",
    find_resource := fun _ _ => none }

/-- Example world: the root file 0 declares two distinct include
filenames `a.h` and `b.h`, and directory 9 resolves both to the same
node 5. -/
def w2 : World Nat :=
  { read := fun n => if n = 0 then some "include <a.h>\ninclude <b.h>" else some "",
    find_resource := fun d f =>
      if d = 9 ∧ f = "a.h" then some 5 else if d = 9 ∧ f = "b.h" then some 5 else none }

/-- Example world like `w2` but where only the filename `a.h` is
resolvable (to node 5), so no two distinct filenames alias one node. -/
def w4 : World Nat :=
  { read := fun n => if n = 0 then some "include <a.h>\ninclude <b.h>" else some "",
    find_resource := fun d f => if d = 9 ∧ f = "a.h" then some 5 else none }

/-- Example world with a cyclic include chain: node 0 includes `b.f`
(resolved by directory 9 to node 1) and node 1 includes `a.f` (resolved
to node 0). -/
def w6 : World Nat :=
  { read := fun n => if n = 0 then some "include <b.f>" else
      if n = 1 then some "include <a.f>" else some "",
    find_resource := fun d f => if d = 9 ∧ f = "a.f" then some 0
      else if d = 9 ∧ f = "b.f" then some 1 else none }

/-- Example world with the filename `x` present in both search
directories: directory 1 resolves it to node 7, directory 2 to node 8. -/
def w7 : World Nat :=
  { read := fun _ => some "",
    find_resource := fun d f =>
      if d = 1 ∧ f = "x" then some 7 else if d = 2 ∧ f = "x" then some 8 else none }

/-- Example world in which reading node 0 raises an I/O error. -/
def w10 : World Nat :=
  { read := fun n => if n = 0 then none else some "use m",
    find_resource := fun _ _ => none }

/-- A fresh traversal state rooted at node 0 with empty session caches. -/
def st0 : PState Nat := initState Nat [] [] 0

/-- Final state of the `w1` traversal (no include directories). -/
def c1run : PState Nat := resSt (runLoop w1 [] 5 st0)

/-- Final state of the `w2` traversal with search path `[9]`. -/
def c2run : PState Nat := resSt (runLoop w2 [9] 9 st0)

/-- Final state of the `w4` traversal with search path `[9]`. -/
def c4run : PState Nat := resSt (runLoop w4 [9] 9 st0)

/-- Final state of the `w6` (cyclic) traversal with search path `[9]`. -/
def c6run : PState Nat := resSt (runLoop w6 [9] 9 st0)

/-- The dependency record of node 0 of `w1`. -/
def c8deps : Deps := extractDeps "include <USE@x>\nuse x"

/-- The state after a first `find_deps` call on node 0 of `w1` (a cache
miss followed by a read). -/
def c8st1 : PState Nat :=
  { st0 with depsCache := lruInsert DEPS_CACHE_SIZE st0.depsCache 0 c8deps,
             reads := st0.reads ++ [0] }

/-- The number of elements of `univ` not yet present in `seen`
(counted with multiplicity in `univ`). -/
def countMissing {α : Type} [DecidableEq α] : List α → List α → Nat
  | [], _ => 0
  | a :: rest, seen => countMissing rest seen + (if a ∈ seen then 0 else 1)

/-- Termination measure of the `start` worklist loop, with respect to a
finite cover `allN` of the reachable nodes and `allF` of the include
filenames occurring in any file: every loop iteration strictly
decreases it. -/
def scanMeasure [DecidableEq N] (allN : List N) (allF : List String) (st : PState N) : Nat :=
  2 * countMissing allN st.seenN + 2 * countMissing allF st.seenS + st.waiting.length

/-- Traversal invariant for the termination and at-most-once argument:
the caches agree with the collaborators, the worklist stays inside the
node cover, the ghost submission and scheduling logs coincide with the
`seen` components, and the `seen` components are duplicate-free. -/
def InvT [DecidableEq N] (w : World N) (allN : List N) (st : PState N) : Prop :=
  depsCacheOK w st ∧ nodeCacheOK w st ∧ (∀ n ∈ st.waiting, n ∈ allN) ∧
  st.submitted = st.seenN ∧ st.scheduled = st.seenS ∧ st.seenN.Nodup ∧ st.seenS.Nodup

/-- Invariant tying `nodes` to the distinct filenames that produced
them: every node in `nodes` is the first-match resolution of some
already-seen filename, and distinct positions of `nodes` come from
distinct filenames. -/
def NodesInv [DecidableEq N] (w : World N) (ips : List N) (st : PState N) : Prop :=
  nodeCacheOK w st ∧
  ∃ fs : List String, fs.Nodup ∧ (∀ x ∈ fs, x ∈ st.seenS) ∧
    List.Forall₂ (fun f n => firstResolve w ips f = some n) fs st.nodes

/-- Case-insensitive prefix test: does the literal word `cs` match the
beginning of the input? -/
def mpI : List Char → List Char → Bool
  | [], _ => true
  | _ :: _, [] => false
  | c :: cs, a :: s => eqI a c && mpI cs s

/-- The last character of the list, or `prev` when it is empty: the
previous-character value after consuming the list. -/
def lastOr (prev : Option Char) : List Char → Option Char
  | [] => prev
  | a :: rest => lastOr (some a) rest

/-- The position is not a line start: there is a previous character and
it is not a newline, so the multi-line `^` anchor fails here. -/
def prevOK (prev : Option Char) : Prop :=
  match prev with
  | none => False
  | some c => ¬ c.toNat = 10

theorem lruLookup_filter_ne [DecidableEq K] (c : List (K × V)) (k k' : K) (h : ¬ k' = k) :
    lruLookup (c.filter fun p => !decide (p.1 = k)) k' = lruLookup c k' := by
  induction c with
  | nil => simp [lruLookup]
  | cons p rest ih =>
    obtain ⟨pk, pv⟩ := p
    by_cases hp : pk = k
    · subst hp
      simp [lruLookup, h, ih]
    · by_cases hk : k' = pk <;> simp [lruLookup, hp, hk, ih]

theorem lruLookup_refresh [DecidableEq K] (c : List (K × V)) (k k' : K) (v : V) :
    lruLookup ((k, v) :: c.filter fun p => !decide (p.1 = k)) k' =
      if k' = k then some v else lruLookup c k' := by
  by_cases h : k' = k <;> simp [lruLookup, h, lruLookup_filter_ne]

theorem lruLookup_take [DecidableEq K] (c : List (K × V)) (cap : Nat) (k : K) (v : V)
    (h : lruLookup (c.take cap) k = some v) : lruLookup c k = some v := by
  induction c generalizing cap with
  | nil => simp [lruLookup] at h
  | cons p rest ih =>
    obtain ⟨pk, pv⟩ := p
    cases cap with
    | zero => simp [lruLookup] at h
    | succ m =>
      by_cases hk : k = pk
      · simpa [lruLookup, hk] using h
      · simp only [List.take, lruLookup, hk, if_false] at h ⊢
        exact ih m h

theorem lruLookup_lruInsert [DecidableEq K] (cap : Nat) (c : List (K × V)) (k k' : K)
    (v v' : V) (h : lruLookup (lruInsert cap c k v) k' = some v') :
    (k' = k ∧ v' = v) ∨ lruLookup c k' = some v' := by
  rw [lruInsert] at h
  have h' := lruLookup_take _ _ _ _ h
  rw [lruLookup_refresh] at h'
  by_cases hk : k' = k
  · rw [if_pos hk] at h'
    injection h' with h''
    exact Or.inl ⟨hk, h''.symm⟩
  · rw [if_neg hk] at h'
    exact Or.inr h'

theorem lruLookup_lruInsert_self [DecidableEq K] (cap : Nat) (c : List (K × V)) (k : K)
    (v : V) (hcap : 0 < cap) : lruLookup (lruInsert cap c k v) k = some v := by
  cases cap with
  | zero => omega
  | succ m => simp [lruInsert, List.take, lruLookup]

theorem lruGet_of_lookup_none [DecidableEq K] (c : List (K × V)) (k : K)
    (h : lruLookup c k = none) : lruGet c k = none := by
  simp [lruGet, h]

theorem lruGet_of_lookup_some [DecidableEq K] (c : List (K × V)) (k : K) (v : V)
    (h : lruLookup c k = some v) :
    lruGet c k = some (v, (k, v) :: c.filter fun p => !decide (p.1 = k)) := by
  simp [lruGet, h]

theorem cfr_val [DecidableEq N] (w : World N) (d : N) (f : String) (st : PState N)
    (hc : nodeCacheOK w st) : (cached_find_resource w d f st).1 = w.find_resource d f := by
  cases h : lruLookup st.nodeCache (d, f) with
  | none => simp [cached_find_resource, lruGet_of_lookup_none _ _ h]
  | some v =>
    have := hc d f v h
    simp [cached_find_resource, lruGet_of_lookup_some _ _ _ h, this]

theorem cfr_frame [DecidableEq N] (w : World N) (d : N) (f : String) (st : PState N) :
    (cached_find_resource w d f st).2.seenN = st.seenN ∧
    (cached_find_resource w d f st).2.seenS = st.seenS ∧
    (cached_find_resource w d f st).2.nodes = st.nodes ∧
    (cached_find_resource w d f st).2.names = st.names ∧
    (cached_find_resource w d f st).2.waiting = st.waiting ∧
    (cached_find_resource w d f st).2.depsCache = st.depsCache ∧
    (cached_find_resource w d f st).2.reads = st.reads ∧
    (cached_find_resource w d f st).2.submitted = st.submitted ∧
    (cached_find_resource w d f st).2.scheduled = st.scheduled := by
  cases h : lruLookup st.nodeCache (d, f) with
  | none => simp [cached_find_resource, lruGet_of_lookup_none _ _ h]
  | some v => simp [cached_find_resource, lruGet_of_lookup_some _ _ _ h]

theorem cfr_nodeOK [DecidableEq N] (w : World N) (d : N) (f : String) (st : PState N)
    (hc : nodeCacheOK w st) : nodeCacheOK w (cached_find_resource w d f st).2 := by
  cases h : lruLookup st.nodeCache (d, f) with
  | none =>
    intro d' f' v' hl
    simp only [cached_find_resource, lruGet_of_lookup_none _ _ h] at hl
    rcases lruLookup_lruInsert _ _ _ _ _ _ hl with ⟨hkey, hval⟩ | hold
    · injection hkey with h1 h2
      subst h1; subst h2; exact hval
    · exact hc d' f' v' hold
  | some v =>
    intro d' f' v' hl
    simp only [cached_find_resource, lruGet_of_lookup_some _ _ _ h] at hl
    rw [lruLookup_refresh] at hl
    by_cases hk : (d', f') = (d, f)
    · rw [if_pos hk] at hl
      injection hl with hl'
      rw [← hl']
      injection hk with h1 h2
      rw [h1, h2]
      exact hc _ _ _ h
    · rw [if_neg hk] at hl
      exact hc d' f' v' hl

theorem fd_error_eq [DecidableEq N] (w : World N) (n : N) (st : PState N) (e : N × PState N)
    (h : find_deps w n st = .error e) : e = (n, st) := by
  cases h1 : lruLookup st.depsCache n with
  | some d => simp [find_deps, lruGet_of_lookup_some _ _ _ h1] at h
  | none =>
    cases h2 : w.read n with
    | none =>
      simp [find_deps, lruGet_of_lookup_none _ _ h1, h2] at h
      exact h.symm
    | some txt => simp [find_deps, lruGet_of_lookup_none _ _ h1, h2] at h

theorem fd_ok_frame [DecidableEq N] (w : World N) (n : N) (st : PState N) (d : Deps)
    (st₁ : PState N) (h : find_deps w n st = .ok (d, st₁)) :
    st₁.seenN = st.seenN ∧ st₁.seenS = st.seenS ∧ st₁.nodes = st.nodes ∧
    st₁.names = st.names ∧ st₁.waiting = st.waiting ∧ st₁.nodeCache = st.nodeCache ∧
    st₁.probes = st.probes ∧ st₁.submitted = st.submitted ∧ st₁.scheduled = st.scheduled := by
  cases h1 : lruLookup st.depsCache n with
  | some d' =>
    simp [find_deps, lruGet_of_lookup_some _ _ _ h1] at h
    rw [← h.2]
    simp
  | none =>
    cases h2 : w.read n with
    | none => simp [find_deps, lruGet_of_lookup_none _ _ h1, h2] at h
    | some txt =>
      simp [find_deps, lruGet_of_lookup_none _ _ h1, h2] at h
      rw [← h.2]
      simp

theorem fd_ok_val [DecidableEq N] (w : World N) (n : N) (st : PState N) (txt : String)
    (d : Deps) (st₁ : PState N) (hd : depsCacheOK w st) (ht : w.read n = some txt)
    (h : find_deps w n st = .ok (d, st₁)) : d = extractDeps txt := by
  cases h1 : lruLookup st.depsCache n with
  | some d' =>
    obtain ⟨txt', ht', hd'⟩ := hd n d' h1
    rw [ht] at ht'
    injection ht' with ht''
    simp [find_deps, lruGet_of_lookup_some _ _ _ h1] at h
    rw [← h.1, hd', ht'']
  | none =>
    simp [find_deps, lruGet_of_lookup_none _ _ h1, ht] at h
    exact h.1.symm

theorem fd_error_read [DecidableEq N] (w : World N) (n : N) (st : PState N) (e : N × PState N)
    (h : find_deps w n st = .error e) : w.read n = none := by
  cases h1 : lruLookup st.depsCache n with
  | some d => simp [find_deps, lruGet_of_lookup_some _ _ _ h1] at h
  | none =>
    cases h2 : w.read n with
    | none => rfl
    | some txt => simp [find_deps, lruGet_of_lookup_none _ _ h1, h2] at h

theorem fd_depsOK [DecidableEq N] (w : World N) (n : N) (st : PState N) (d : Deps)
    (st₁ : PState N) (h : find_deps w n st = .ok (d, st₁)) (hd : depsCacheOK w st) :
    depsCacheOK w st₁ := by
  cases h1 : lruLookup st.depsCache n with
  | some d' =>
    simp [find_deps, lruGet_of_lookup_some _ _ _ h1] at h
    intro m dm hm
    rw [← h.2] at hm
    dsimp at hm
    rw [lruLookup_refresh] at hm
    by_cases hk : m = n
    · rw [if_pos hk] at hm
      injection hm with hm'
      rw [hk, ← hm']
      exact hd n d' h1
    · rw [if_neg hk] at hm
      exact hd _ _ hm
  | none =>
    cases h2 : w.read n with
    | none => simp [find_deps, lruGet_of_lookup_none _ _ h1, h2] at h
    | some txt =>
      simp [find_deps, lruGet_of_lookup_none _ _ h1, h2] at h
      intro m dm hm
      rw [← h.2] at hm
      dsimp at hm
      rcases lruLookup_lruInsert _ _ _ _ _ _ hm with ⟨hk, hv⟩ | hold
      · rw [hk, hv]
        exact ⟨txt, h2, rfl⟩
      · exact hd _ _ hold

theorem fd_nodeOK [DecidableEq N] (w : World N) (n : N) (st : PState N) (d : Deps)
    (st₁ : PState N) (h : find_deps w n st = .ok (d, st₁)) (hc : nodeCacheOK w st) :
    nodeCacheOK w st₁ := by
  intro d' f' v' hl
  rw [(fd_ok_frame w n st d st₁ h).2.2.2.2.2.1] at hl
  exact hc d' f' v' hl

theorem foldl_preserve {σ α : Type} (P : σ → Prop) (g : σ → α → σ)
    (h : ∀ s a, P s → P (g s a)) : ∀ (xs : List α) (s : σ), P s → P (List.foldl g s xs) := by
  intro xs
  induction xs with
  | nil => intro s hs; exact hs
  | cons a rest ih => intro s hs; exact ih _ (h s a hs)

theorem foldl_preserve_mem {σ α : Type} (P : σ → Prop) (g : σ → α → σ) :
    ∀ (xs : List α), (∀ s a, a ∈ xs → P s → P (g s a)) →
      ∀ s, P s → P (List.foldl g s xs) := by
  intro xs
  induction xs with
  | nil => intro _ s hs; exact hs
  | cons a rest ih =>
    intro h s hs
    exact ih (fun s' a' ha' => h s' a' (List.mem_cons_of_mem _ ha'))
      _ (h s a (List.mem_cons_self _ _) hs)

theorem tryfindGo_spec [DecidableEq N] (w : World N) (f : String) :
    ∀ (dirs : List N) (st : PState N), nodeCacheOK w st →
    nodeCacheOK w (tryfindGo w f dirs st) ∧
    (tryfindGo w f dirs st).seenN = st.seenN ∧
    (tryfindGo w f dirs st).seenS = st.seenS ∧
    (tryfindGo w f dirs st).depsCache = st.depsCache ∧
    (tryfindGo w f dirs st).reads = st.reads ∧
    (tryfindGo w f dirs st).submitted = st.submitted ∧
    (tryfindGo w f dirs st).scheduled = st.scheduled ∧
    (match firstResolve w dirs f with
     | some n => (tryfindGo w f dirs st).nodes = st.nodes ++ [n] ∧
                 (tryfindGo w f dirs st).waiting = st.waiting ++ [n] ∧
                 (tryfindGo w f dirs st).names = st.names
     | none => (tryfindGo w f dirs st).nodes = st.nodes ∧
               (tryfindGo w f dirs st).waiting = st.waiting ∧
               (tryfindGo w f dirs st).names =
                 (if f ∈ st.names then st.names else st.names ++ [f])) := by
  intro dirs
  induction dirs with
  | nil =>
    intro st hc
    by_cases hf : f ∈ st.names <;>
      simp [tryfindGo, firstResolve, hf, hc, nodeCacheOK] at hc ⊢ <;>
      exact hc
  | cons dd rest ih =>
    intro st hc
    have hval := cfr_val w dd f st hc
    have hfr := cfr_frame w dd f st
    have hcOK := cfr_nodeOK w dd f st hc
    cases hres : w.find_resource dd f with
    | some n =>
      have hgo : tryfindGo w f (dd :: rest) st =
          { (cached_find_resource w dd f st).2 with
            nodes := (cached_find_resource w dd f st).2.nodes ++ [n],
            waiting := (cached_find_resource w dd f st).2.waiting ++ [n] } := by
        rw [tryfindGo]
        rw [hres] at hval
        rw [hval]
      rw [hgo]
      rw [firstResolve, hres]
      refine ⟨?_, ?_⟩
      · intro d' f' v' hl
        dsimp at hl
        exact hcOK d' f' v' hl
      · obtain ⟨f1, f2, f3, f4, f5, f6, f7, f8, f9⟩ := hfr
        exact ⟨by simpa using f1, by simpa using f2, by simpa using f6, by simpa using f7,
               by simpa using f8, by simpa using f9,
               by simp [f3], by simp [f5], by simpa using f4⟩
    | none =>
      have hgo : tryfindGo w f (dd :: rest) st =
          tryfindGo w f rest (cached_find_resource w dd f st).2 := by
        rw [tryfindGo]
        rw [hres] at hval
        rw [hval]
      rw [hgo]
      rw [firstResolve, hres]
      obtain ⟨f1, f2, f3, f4, f5, f6, f7, f8, f9⟩ := hfr
      obtain ⟨g0, g1, g2, g3, g4, g5, g6, g7⟩ := ih (cached_find_resource w dd f st).2 hcOK
      refine ⟨g0, by rw [g1, f1], by rw [g2, f2], by rw [g3, f6], by rw [g4, f7],
              by rw [g5, f8], by rw [g6, f9], ?_⟩
      cases hrest : firstResolve w rest f with
      | some n =>
        rw [hrest] at g7
        exact ⟨by rw [g7.1, f3], by rw [g7.2.1, f5], by rw [g7.2.2, f4]⟩
      | none =>
        rw [hrest] at g7
        exact ⟨by rw [g7.1, f3], by rw [g7.2.1, f5], by rw [g7.2.2, f4]⟩

theorem firstResolve_of_none (w : World N) (f : String) :
    ∀ ips : List N, (∀ d ∈ ips, w.find_resource d f = none) → firstResolve w ips f = none := by
  intro ips
  induction ips with
  | nil => intro _; rfl
  | cons d rest ih =>
    intro h
    rw [firstResolve, h d (List.mem_cons_self _ _)]
    exact ih fun d' hd' => h d' (List.mem_cons_of_mem _ hd')

theorem firstResolve_mem (w : World N) (f : String) :
    ∀ (ips : List N) (n : N), firstResolve w ips f = some n →
      ∃ d ∈ ips, w.find_resource d f = some n := by
  intro ips
  induction ips with
  | nil => intro n h; simp [firstResolve] at h
  | cons d rest ih =>
    intro n h
    rw [firstResolve] at h
    cases hres : w.find_resource d f with
    | some m =>
      rw [hres] at h
      injection h with h'
      exact ⟨d, List.mem_cons_self _ _, by rw [hres, h']⟩
    | none =>
      rw [hres] at h
      obtain ⟨d', hd', hr⟩ := ih n h
      exact ⟨d', List.mem_cons_of_mem _ hd', hr⟩

/-- Claim C7: include resolution probes the caller-supplied search
directories in their given order and stops at the first directory that
yields a match — with search directories `[d1, d2]` and the filename
resolvable in both, the node obtained from `d1` is the one appended to
`nodes` (and scheduled on `waiting`); and only when no directory yields
a match is the unresolved-include name for the filename appended to
`names`. -/
theorem claim_C7 [DecidableEq N] (w : World N) (d1 d2 : N) (f g : String) (st : PState N)
    (n1 n2 : N) (ips : List N) (hc : nodeCacheOK w st)
    (h1 : w.find_resource d1 f = some n1) (h2 : w.find_resource d2 f = some n2)
    (hg : ∀ d ∈ ips, w.find_resource d g = none) (hgn : ¬ g ∈ st.names) :
    (tryfind_header w [d1, d2] f st).nodes = st.nodes ++ [n1] ∧
    (tryfind_header w [d1, d2] f st).waiting = st.waiting ++ [n1] ∧
    (tryfind_header w ips g st).nodes = st.nodes ∧
    (tryfind_header w ips g st).names = st.names ++ [g] := by
  have hfr : firstResolve w [d1, d2] f = some n1 := by rw [firstResolve, h1]
  have s1 := tryfindGo_spec w f [d1, d2] st hc
  simp only [hfr] at s1
  have s2 := tryfindGo_spec w g ips st hc
  simp only [firstResolve_of_none w g ips hg] at s2
  refine ⟨?_, ?_, ?_, ?_⟩
  · rw [tryfind_header]; exact s1.2.2.2.2.2.2.2.1
  · rw [tryfind_header]; exact s1.2.2.2.2.2.2.2.2.1
  · rw [tryfind_header]; exact s2.2.2.2.2.2.2.2.1
  · rw [tryfind_header, s2.2.2.2.2.2.2.2.2.2, if_neg hgn]

/-- Witness for claim C7 at the concrete world `w7`: the filename `x`
is present in both directories 1 and 2, and resolution returns node 7
from directory 1; the filename `zz` resolves nowhere and is recorded in
`names`. -/
theorem claim_C7_witness :
    (tryfind_header w7 [1, 2] "x" st0).nodes = st0.nodes ++ [7] ∧
    (tryfind_header w7 [1, 2] "x" st0).waiting = st0.waiting ++ [7] ∧
    (tryfind_header w7 [1, 2] "zz" st0).nodes = st0.nodes ∧
    (tryfind_header w7 [1, 2] "zz" st0).names = st0.names ++ ["zz"] :=
  claim_C7 w7 1 2 "x" "zz" st0 7 8 [1, 2]
    (by intro d f v h; simp [st0, initState, lruLookup] at h)
    (by decide) (by decide) (by decide) (by decide)

theorem fd_memo [DecidableEq N] (w : World N) (n : N) (st : PState N) (d : Deps)
    (st₁ : PState N) (h : find_deps w n st = .ok (d, st₁)) :
    lruLookup st₁.depsCache n = some d := by
  cases h1 : lruLookup st.depsCache n with
  | some d' =>
    simp [find_deps, lruGet_of_lookup_some _ _ _ h1] at h
    rw [← h.2]
    dsimp
    rw [lruLookup_refresh, if_pos rfl, h.1]
  | none =>
    cases h2 : w.read n with
    | none => simp [find_deps, lruGet_of_lookup_none _ _ h1, h2] at h
    | some txt =>
      simp [find_deps, lruGet_of_lookup_none _ _ h1, h2] at h
      rw [← h.2]
      dsimp
      rw [← h.1]
      exact lruLookup_lruInsert_self _ _ _ _ (by decide)

/-- Claim C8: dependency extraction is memoized per file within a
session — after a `find_deps` call on a node has returned a record, a
second call on the same node returns an equal record and performs no
further file read (the `reads` log of collaborator invocations is
unchanged by the second call). -/
theorem claim_C8 [DecidableEq N] (w : World N) (n : N) (st : PState N) (d : Deps)
    (st₁ : PState N) (h : find_deps w n st = .ok (d, st₁)) :
    find_deps w n st₁ =
      .ok (d, { st₁ with depsCache := (n, d) :: st₁.depsCache.filter fun p => !decide (p.1 = n) }) ∧
    ({ st₁ with depsCache := (n, d) :: st₁.depsCache.filter fun p => !decide (p.1 = n) } : PState N).reads
      = st₁.reads := by
  have hL := fd_memo w n st d st₁ h
  exact ⟨by simp [find_deps, lruGet_of_lookup_some _ _ _ hL], rfl⟩

/-- Witness for claim C8 at the concrete world `w1`: the second
`find_deps` call on node 0 returns the same record without a new read. -/
theorem claim_C8_witness :
    find_deps w1 0 c8st1 =
      .ok (c8deps, { c8st1 with depsCache := (0, c8deps) :: c8st1.depsCache.filter fun p => !decide (p.1 = 0) }) ∧
    ({ c8st1 with depsCache := (0, c8deps) :: c8st1.depsCache.filter fun p => !decide (p.1 = 0) } : PState Nat).reads
      = c8st1.reads :=
  claim_C8 w1 0 st0 c8deps c8st1 (by rfl)

/-- Claim C9: the resolution cache stores negative outcomes — after a
`cached_find_resource` miss that probes the collaborator and finds
nothing, a second call with the same (directory, filename) pair returns
the cached negative result without invoking the collaborator again (the
`probes` log is unchanged by the second call). -/
theorem claim_C9 [DecidableEq N] (w : World N) (dir : N) (f : String) (st : PState N)
    (hmiss : lruLookup st.nodeCache (dir, f) = none) (habs : w.find_resource dir f = none) :
    (cached_find_resource w dir f st).1 = none ∧
    (cached_find_resource w dir f st).2.probes = st.probes ++ [(dir, f)] ∧
    (cached_find_resource w dir f (cached_find_resource w dir f st).2).1 = none ∧
    (cached_find_resource w dir f (cached_find_resource w dir f st).2).2.probes =
      (cached_find_resource w dir f st).2.probes := by
  have h1 : cached_find_resource w dir f st =
      (none, { st with nodeCache := lruInsert FILE_CACHE_SIZE st.nodeCache (dir, f) none,
                       probes := st.probes ++ [(dir, f)] }) := by
    simp [cached_find_resource, lruGet_of_lookup_none _ _ hmiss, habs]
  have h2 : lruLookup (lruInsert FILE_CACHE_SIZE st.nodeCache (dir, f) none) (dir, f) =
      some none := lruLookup_lruInsert_self _ _ _ _ (by decide)
  refine ⟨by rw [h1], by rw [h1], ?_, ?_⟩
  · rw [h1]
    simp [cached_find_resource, lruGet_of_lookup_some _ _ _ h2]
  · rw [h1]
    simp [cached_find_resource, lruGet_of_lookup_some _ _ _ h2]

/-- Witness for claim C9 at the concrete world `w7`: the filename `q`
is nowhere to be found from directory 3; the second probe is served from
the cache. -/
theorem claim_C9_witness :
    (cached_find_resource w7 3 "q" st0).1 = none ∧
    (cached_find_resource w7 3 "q" st0).2.probes = st0.probes ++ [(3, "q")] ∧
    (cached_find_resource w7 3 "q" (cached_find_resource w7 3 "q" st0).2).1 = none ∧
    (cached_find_resource w7 3 "q" (cached_find_resource w7 3 "q" st0).2).2.probes =
      (cached_find_resource w7 3 "q" st0).2.probes :=
  claim_C9 w7 3 "q" st0 (by decide) (by decide)

/-- Claim C10: a failing file read during a traversal propagates out of
`iter` as an error carrying the failing node; the node is left unmarked
in `seen`, no dependency record for it is stored in the cache, and the
accumulated `nodes` and `names` (and the rest of the traversal state)
are unchanged by the failing step. -/
theorem claim_C10 [DecidableEq N] (w : World N) (ips : List N) (n : N) (st : PState N)
    (hn : ¬ n ∈ st.seenN) (hmiss : lruLookup st.depsCache n = none)
    (hio : w.read n = none) :
    iter w ips n st = .error (n, { st with submitted := st.submitted ++ [n] }) ∧
    ({ st with submitted := st.submitted ++ [n] } : PState N).seenN = st.seenN ∧
    ({ st with submitted := st.submitted ++ [n] } : PState N).seenS = st.seenS ∧
    ({ st with submitted := st.submitted ++ [n] } : PState N).nodes = st.nodes ∧
    ({ st with submitted := st.submitted ++ [n] } : PState N).names = st.names ∧
    ({ st with submitted := st.submitted ++ [n] } : PState N).waiting = st.waiting ∧
    ({ st with submitted := st.submitted ++ [n] } : PState N).nodeCache = st.nodeCache ∧
    lruLookup ({ st with submitted := st.submitted ++ [n] } : PState N).depsCache n = none := by
  have hfd : find_deps w n { st with submitted := st.submitted ++ [n] } =
      .error (n, { st with submitted := st.submitted ++ [n] }) := by
    simp [find_deps,
      lruGet_of_lookup_none _ _
        (show lruLookup ({ st with submitted := st.submitted ++ [n] } : PState N).depsCache n = none from hmiss),
      hio]
  refine ⟨?_, rfl, rfl, rfl, rfl, rfl, rfl, hmiss⟩
  simp only [iter]
  rw [if_neg hn, hfd]

/-- Witness for claim C10 at the concrete world `w10`, whose node 0
fails to read. -/
theorem claim_C10_witness :
    iter w10 [] 0 st0 = .error (0, { st0 with submitted := st0.submitted ++ [0] }) ∧
    ({ st0 with submitted := st0.submitted ++ [0] } : PState Nat).seenN = st0.seenN ∧
    ({ st0 with submitted := st0.submitted ++ [0] } : PState Nat).seenS = st0.seenS ∧
    ({ st0 with submitted := st0.submitted ++ [0] } : PState Nat).nodes = st0.nodes ∧
    ({ st0 with submitted := st0.submitted ++ [0] } : PState Nat).names = st0.names ∧
    ({ st0 with submitted := st0.submitted ++ [0] } : PState Nat).waiting = st0.waiting ∧
    ({ st0 with submitted := st0.submitted ++ [0] } : PState Nat).nodeCache = st0.nodeCache ∧
    lruLookup ({ st0 with submitted := st0.submitted ++ [0] } : PState Nat).depsCache 0 = none :=
  claim_C10 w10 [] 0 st0 (by decide) (by decide) (by decide)

theorem nodup_append_if {α : Type} [DecidableEq α] (l : List α) (a : α) (h : l.Nodup) :
    (if a ∈ l then l else l ++ [a]).Nodup := by
  by_cases ha : a ∈ l
  · rw [if_pos ha]; exact h
  · rw [if_neg ha]
    rw [List.nodup_append]
    refine ⟨h, List.nodup_singleton a, ?_⟩
    intro x hx hm
    rw [List.mem_singleton] at hm
    subst hm
    exact ha hx

theorem tryfindGo_names_nodup [DecidableEq N] (w : World N) (f : String) :
    ∀ (dirs : List N) (st : PState N), st.names.Nodup → (tryfindGo w f dirs st).names.Nodup := by
  intro dirs
  induction dirs with
  | nil =>
    intro st h
    rw [tryfindGo]
    by_cases hf : f ∈ st.names
    · rw [if_pos hf]; exact h
    · rw [if_neg hf]
      have := nodup_append_if st.names f h
      rw [if_neg hf] at this
      exact this
  | cons d rest ih =>
    intro st h
    rw [tryfindGo]
    have hfr := (cfr_frame w d f st).2.2.2.1
    cases hres : (cached_find_resource w d f st).1 with
    | some n =>
      dsimp
      rw [hfr]
      exact h
    | none =>
      dsimp
      exact ih _ (by rw [hfr]; exact h)

theorem procInc_names_nodup [DecidableEq N] (w : World N) (ips : List N) (st : PState N)
    (x : String) (h : st.names.Nodup) : (procInc w ips st x).names.Nodup := by
  rw [procInc]
  by_cases hx : x ∈ st.seenS
  · rw [if_pos hx]; exact h
  · rw [if_neg hx]
    exact tryfindGo_names_nodup w x ips _ h

theorem procUse_names [DecidableEq N] (st : PState N) (x : String) :
    (procUse N st x).names =
      (if ("USE@" ++ x) ∈ st.names then st.names else st.names ++ ["USE@" ++ x]) := by
  by_cases hx : ("USE@" ++ x) ∈ st.names <;> simp [procUse, hx]

theorem procMod_names [DecidableEq N] (st : PState N) (x : String) :
    (procMod N st x).names =
      (if ("MOD@" ++ x) ∈ st.names then st.names else st.names ++ ["MOD@" ++ x]) := by
  by_cases hx : ("MOD@" ++ x) ∈ st.names <;> simp [procMod, hx]

theorem procUse_names_nodup [DecidableEq N] (st : PState N) (x : String)
    (h : st.names.Nodup) : (procUse N st x).names.Nodup := by
  rw [procUse_names]
  exact nodup_append_if _ _ h

theorem procMod_names_nodup [DecidableEq N] (st : PState N) (x : String)
    (h : st.names.Nodup) : (procMod N st x).names.Nodup := by
  rw [procMod_names]
  exact nodup_append_if _ _ h

theorem iter_names_nodup [DecidableEq N] (w : World N) (ips : List N) (n : N)
    (st st' : PState N) (h : iter w ips n st = .ok st') (hn : st.names.Nodup) :
    st'.names.Nodup := by
  rw [iter] at h
  by_cases hseen : n ∈ st.seenN
  · rw [if_pos hseen] at h
    injection h with h'
    rw [← h']
    exact hn
  · rw [if_neg hseen] at h
    cases hfd : find_deps w n { st with submitted := st.submitted ++ [n] } with
    | error e =>
      rw [hfd] at h
      cases h
    | ok p =>
      obtain ⟨deps, st₁⟩ := p
      rw [hfd] at h
      dsimp at h
      injection h with h'
      rw [← h']
      have h1 : ({ st₁ with seenN := st₁.seenN ++ [n] } : PState N).names.Nodup := by
        show st₁.names.Nodup
        rw [(fd_ok_frame w n _ deps st₁ hfd).2.2.2.1]
        exact hn
      exact foldl_preserve (fun s => s.names.Nodup) (procMod N)
        (fun s a hs => procMod_names_nodup s a hs) _ _
        (foldl_preserve (fun s => s.names.Nodup) (procUse N)
          (fun s a hs => procUse_names_nodup s a hs) _ _
          (foldl_preserve (fun s => s.names.Nodup) (procInc w ips)
            (fun s a hs => procInc_names_nodup w ips s a hs) _ _ h1))

theorem runLoop_names_nodup [DecidableEq N] (w : World N) (ips : List N) :
    ∀ (fuel : Nat) (st st' : PState N), runLoop w ips fuel st = .done st' →
      st.names.Nodup → st'.names.Nodup := by
  intro fuel
  induction fuel with
  | zero =>
    intro st st' h hn
    rw [runLoop] at h
    cases hw : st.waiting with
    | nil =>
      rw [hw] at h
      injection h with h'
      rw [← h']
      exact hn
    | cons nd rest =>
      rw [hw] at h
      cases h
  | succ fuel ih =>
    intro st st' h hn
    rw [runLoop] at h
    cases hw : st.waiting with
    | nil =>
      rw [hw] at h
      injection h with h'
      rw [← h']
      exact hn
    | cons nd rest =>
      rw [hw] at h
      dsimp at h
      cases hit : iter w ips nd { st with waiting := rest } with
      | error e =>
        rw [hit] at h
        cases h
      | ok stN =>
        rw [hit] at h
        exact ih _ _ h (iter_names_nodup w ips nd _ stN hit hn)

/-- Claim C1 (amended): used-module and provided-module names are
appended to `names` tagged with `USE@` and `MOD@` respectively, but an
unresolved include is appended as its bare untagged filename, so an
include filename can collide with a tagged module name of the same
literal string; within one traversal `names` never contains duplicate
strings (insertion-ordered deduplication by string equality). -/
theorem claim_C1_amended [DecidableEq N] (w : World N) (ips : List N) (fuel : Nat)
    (st st' : PState N) (h : runLoop w ips fuel st = .done st') (hn : st.names.Nodup)
    (stU : PState N) (x : String) :
    st'.names.Nodup ∧
    (procUse N stU x).names =
      (if ("USE@" ++ x) ∈ stU.names then stU.names else stU.names ++ ["USE@" ++ x]) ∧
    (procMod N stU x).names =
      (if ("MOD@" ++ x) ∈ stU.names then stU.names else stU.names ++ ["MOD@" ++ x]) :=
  ⟨runLoop_names_nodup w ips fuel st st' h hn, procUse_names stU x, procMod_names stU x⟩

/-- Counterexample to claim C1 as stated: in world `w1` the file uses
module `x` (tagged name `USE@x`) and has an unresolved include whose
literal filename is `USE@x`; the include is recorded untagged, the two
kinds collide, and the traversal ends with the single entry `USE@x`
standing for both — not two kind-distinguished names. -/
theorem claim_C1_counterexample :
    c1run.names = ["USE@x"] ∧ ("USE@" ++ "x" : String) = "USE@x" ∧
    c1run.names.length = 1 := by
  decide

/-- Witness for claim C1 (amended) at the `w1` traversal. -/
theorem claim_C1_witness :
    c1run.names.Nodup ∧
    (procUse Nat st0 "m").names =
      (if ("USE@" ++ "m") ∈ st0.names then st0.names else st0.names ++ ["USE@" ++ "m"]) ∧
    (procMod Nat st0 "m").names =
      (if ("MOD@" ++ "m") ∈ st0.names then st0.names else st0.names ++ ["MOD@" ++ "m"]) :=
  claim_C1_amended w1 [] 5 st0 c1run (by decide) (by decide) st0 "m"

/-- Counterexample to claim C2 as stated: in world `w2` the two distinct
include filenames `a.h` and `b.h` both resolve to node 5, which is
appended to `resolved_nodes` twice within a single traversal. -/
theorem claim_C2_counterexample :
    c2run.nodes = [5, 5] ∧ ¬ c2run.nodes.Nodup := by
  decide

/-- Counterexample to claim C3 as stated: an include directive preceded
on the same line by a bare statement separator `;` is not matched (the
include rule requires a quote or bracket terminator before the
separator), although the same directive is matched without the
separator prefix. -/
theorem claim_C3_counterexample :
    findall re_inc "x = 1; include <a.h>" = [] ∧
    findall re_inc "include <a.h>" = ["a.h"] := by
  decide

/-- Claim C3 (amended): the use and module rules tolerate a leading
statement separator `;` and matches may repeat arbitrarily many times
within one text, but the include rule tolerates a separator only when
it is immediately preceded by a quote or bracket terminator from a
prior statement; a bare `;` before an include directive prevents the
match. -/
theorem claim_C3_amended :
    findall re_use "x = 1; use foo" = ["foo"] ∧
    findall re_mod "x = 1; module foo" = ["foo"] ∧
    findall re_inc "p = \"q\"; include <a.h>" = ["a.h"] ∧
    findall re_inc "x = 1; include <a.h>" = [] ∧
    findall re_use "use a\nuse b; use c" = ["a", "b", "c"] ∧
    findall re_mod "module a\nmodule b; module c" = ["a", "b", "c"] ∧
    findall re_inc "include <a.h>; include <b.h>; include <c.h>" = ["a.h", "b.h", "c.h"] := by
  decide

theorem nodup_snoc {α : Type} (l : List α) (a : α) (h : l.Nodup) (ha : ¬ a ∈ l) :
    (l ++ [a]).Nodup := by
  rw [List.nodup_append]
  refine ⟨h, List.nodup_singleton a, ?_⟩
  intro x hx hm
  rw [List.mem_singleton] at hm
  subst hm
  exact ha hx

theorem forall2_snoc {α β : Type} (R : α → β → Prop) :
    ∀ (fs : List α) (ns : List β), List.Forall₂ R fs ns → ∀ x n, R x n →
      List.Forall₂ R (fs ++ [x]) (ns ++ [n]) := by
  intro fs
  induction fs with
  | nil =>
    intro ns h x n hr
    cases h
    exact List.Forall₂.cons hr List.Forall₂.nil
  | cons a rest ih =>
    intro ns h x n hr
    cases h with
    | cons hab htl => exact List.Forall₂.cons hab (ih _ htl x n hr)

theorem forall2_mem_right {α β : Type} (R : α → β → Prop) :
    ∀ (fs : List α) (ns : List β), List.Forall₂ R fs ns → ∀ b ∈ ns, ∃ a ∈ fs, R a b := by
  intro fs
  induction fs with
  | nil =>
    intro ns h b hb
    cases h
    simp at hb
  | cons a rest ih =>
    intro ns h b hb
    cases h with
    | cons hab htl =>
      rcases List.mem_cons.mp hb with hb1 | hb2
      · exact ⟨a, List.mem_cons_self _ _, by rw [hb1]; exact hab⟩
      · obtain ⟨a', ha', hr⟩ := ih _ htl b hb2
        exact ⟨a', List.mem_cons_of_mem _ ha', hr⟩

theorem forall2_nodup {α β : Type} (R : α → β → Prop)
    (hinj : ∀ a b a', R a b → R a' b → a = a') :
    ∀ (fs : List α) (ns : List β), List.Forall₂ R fs ns → fs.Nodup → ns.Nodup := by
  intro fs
  induction fs with
  | nil =>
    intro ns h _
    cases h
    exact List.nodup_nil
  | cons a rest ih =>
    intro ns h hn
    cases h with
    | cons hab htl =>
      rw [List.nodup_cons] at hn ⊢
      refine ⟨?_, ih _ htl hn.2⟩
      intro hbmem
      obtain ⟨a', ha', hr⟩ := forall2_mem_right R rest _ htl _ hbmem
      have hEq : a = a' := hinj a _ a' hab hr
      rw [hEq] at hn
      exact hn.1 ha'

theorem procInc_nodesInv [DecidableEq N] (w : World N) (ips : List N) (st : PState N)
    (x : String) (h : NodesInv w ips st) : NodesInv w ips (procInc w ips st x) := by
  obtain ⟨hc, fs, hnd, hsub, hf2⟩ := h
  rw [procInc]
  by_cases hx : x ∈ st.seenS
  · rw [if_pos hx]
    exact ⟨hc, fs, hnd, hsub, hf2⟩
  · rw [if_neg hx]
    have hc₁ : nodeCacheOK w
        { st with seenS := st.seenS ++ [x], scheduled := st.scheduled ++ [x] } := hc
    rw [tryfind_header]
    obtain ⟨g0, g1, g2, g3, g4, g5, g6, g7⟩ := tryfindGo_spec w x ips _ hc₁
    cases hres : firstResolve w ips x with
    | some n =>
      rw [hres] at g7
      refine ⟨g0, fs ++ [x], ?_, ?_, ?_⟩
      · exact nodup_snoc fs x hnd fun hm => hx (hsub x hm)
      · intro y hy
        rw [g2]
        show y ∈ st.seenS ++ [x]
        rcases List.mem_append.mp hy with hy1 | hy2
        · exact List.mem_append_left _ (hsub y hy1)
        · exact List.mem_append_right _ hy2
      · rw [g7.1]
        show List.Forall₂ _ (fs ++ [x]) (st.nodes ++ [n])
        exact forall2_snoc _ fs _ hf2 x n hres
    | none =>
      rw [hres] at g7
      refine ⟨g0, fs, hnd, ?_, ?_⟩
      · intro y hy
        rw [g2]
        show y ∈ st.seenS ++ [x]
        exact List.mem_append_left _ (hsub y hy)
      · rw [g7.1]
        exact hf2

theorem procUse_nodesInv [DecidableEq N] (w : World N) (ips : List N) (st : PState N)
    (x : String) (h : NodesInv w ips st) : NodesInv w ips (procUse N st x) := by
  obtain ⟨hc, fs, hnd, hsub, hf2⟩ := h
  simp only [procUse]
  by_cases hx : ("USE@" ++ x) ∈ st.names
  · rw [if_pos hx]
    exact ⟨hc, fs, hnd, hsub, hf2⟩
  · rw [if_neg hx]
    exact ⟨hc, fs, hnd, hsub, hf2⟩

theorem procMod_nodesInv [DecidableEq N] (w : World N) (ips : List N) (st : PState N)
    (x : String) (h : NodesInv w ips st) : NodesInv w ips (procMod N st x) := by
  obtain ⟨hc, fs, hnd, hsub, hf2⟩ := h
  simp only [procMod]
  by_cases hx : ("MOD@" ++ x) ∈ st.names
  · rw [if_pos hx]
    exact ⟨hc, fs, hnd, hsub, hf2⟩
  · rw [if_neg hx]
    exact ⟨hc, fs, hnd, hsub, hf2⟩

theorem iter_nodesInv [DecidableEq N] (w : World N) (ips : List N) (n : N)
    (st st' : PState N) (h : iter w ips n st = .ok st') (hi : NodesInv w ips st) :
    NodesInv w ips st' := by
  rw [iter] at h
  by_cases hseen : n ∈ st.seenN
  · rw [if_pos hseen] at h
    injection h with h'
    rw [← h']
    exact hi
  · rw [if_neg hseen] at h
    cases hfd : find_deps w n { st with submitted := st.submitted ++ [n] } with
    | error e =>
      rw [hfd] at h
      cases h
    | ok p =>
      obtain ⟨deps, st₁⟩ := p
      rw [hfd] at h
      dsimp at h
      injection h with h'
      rw [← h']
      have hfr := fd_ok_frame w n _ deps st₁ hfd
      have hi₁ : NodesInv w ips { st₁ with seenN := st₁.seenN ++ [n] } := by
        obtain ⟨hc, fs, hnd, hsub, hf2⟩ := hi
        refine ⟨?_, fs, hnd, ?_, ?_⟩
        · intro d' f' v' hl
          rw [show ({ st₁ with seenN := st₁.seenN ++ [n] } : PState N).nodeCache
              = st₁.nodeCache from rfl, hfr.2.2.2.2.2.1] at hl
          exact hc d' f' v' hl
        · intro y hy
          show y ∈ st₁.seenS
          rw [hfr.2.1]
          exact hsub y hy
        · show List.Forall₂ _ fs st₁.nodes
          rw [hfr.2.2.1]
          exact hf2
      exact foldl_preserve (NodesInv w ips) (procMod N)
        (fun s a hs => procMod_nodesInv w ips s a hs) _ _
        (foldl_preserve (NodesInv w ips) (procUse N)
          (fun s a hs => procUse_nodesInv w ips s a hs) _ _
          (foldl_preserve (NodesInv w ips) (procInc w ips)
            (fun s a hs => procInc_nodesInv w ips s a hs) _ _ hi₁))

theorem runLoop_nodesInv [DecidableEq N] (w : World N) (ips : List N) :
    ∀ (fuel : Nat) (st st' : PState N), runLoop w ips fuel st = .done st' →
      NodesInv w ips st → NodesInv w ips st' := by
  intro fuel
  induction fuel with
  | zero =>
    intro st st' h hi
    rw [runLoop] at h
    cases hw : st.waiting with
    | nil =>
      rw [hw] at h
      injection h with h'
      rw [← h']
      exact hi
    | cons nd rest =>
      rw [hw] at h
      cases h
  | succ fuel ih =>
    intro st st' h hi
    rw [runLoop] at h
    cases hw : st.waiting with
    | nil =>
      rw [hw] at h
      injection h with h'
      rw [← h']
      exact hi
    | cons nd rest =>
      rw [hw] at h
      dsimp at h
      cases hit : iter w ips nd { st with waiting := rest } with
      | error e =>
        rw [hit] at h
        cases h
      | ok stN =>
        rw [hit] at h
        refine ih _ _ h (iter_nodesInv w ips nd _ stN hit ?_)
        obtain ⟨hc, fs, hnd, hsub, hf2⟩ := hi
        exact ⟨hc, fs, hnd, hsub, hf2⟩

/-- Claim C2 (amended): within one traversal each include filename is
scheduled and resolved at most once, so `resolved_nodes` contains no
duplicate nodes whenever distinct include filenames never resolve to
the same node; when two distinct filenames do alias one node, that node
is appended twice (see the counterexample). -/
theorem claim_C2_amended [DecidableEq N] (w : World N) (ips : List N) (root : N)
    (fuel : Nat) (st' : PState N)
    (hinj : ∀ d f d' f' n, w.find_resource d f = some n → w.find_resource d' f' = some n →
      f = f')
    (h : runLoop w ips fuel (initState N [] [] root) = .done st') :
    st'.nodes.Nodup := by
  have h0 : NodesInv w ips (initState N [] [] root) := by
    refine ⟨?_, [], List.nodup_nil, ?_, ?_⟩
    · intro d f v hl
      simp [initState, lruLookup] at hl
    · intro y hy
      simp at hy
    · exact List.Forall₂.nil
  obtain ⟨hc, fs, hnd, hsub, hf2⟩ := runLoop_nodesInv w ips fuel _ st' h h0
  refine forall2_nodup _ ?_ fs _ hf2 hnd
  intro a b a' h1 h2
  obtain ⟨d, hd, hr⟩ := firstResolve_mem w a ips b h1
  obtain ⟨d', hd', hr'⟩ := firstResolve_mem w a' ips b h2
  exact hinj d a d' a' b hr hr'

/-- Witness for claim C2 (amended) at the `w4` traversal, in which only
the filename `a.h` resolves (to node 5) and `b.h` resolves nowhere. -/
theorem claim_C2_witness : c4run.nodes.Nodup :=
  claim_C2_amended w4 [9] 0 9 c4run
    (by
      intro d f d' f' n h1 h2
      dsimp only [w4] at h1 h2
      by_cases c1 : d = 9 ∧ f = "a.h"
      · by_cases c2 : d' = 9 ∧ f' = "a.h"
        · rw [c1.2, c2.2]
        · rw [if_neg c2] at h2
          cases h2
      · rw [if_neg c1] at h1
        cases h1)
    (by decide)

theorem countMissing_le {α : Type} [DecidableEq α] :
    ∀ (univ seen ext : List α), countMissing univ (seen ++ ext) ≤ countMissing univ seen := by
  intro univ seen ext
  induction univ with
  | nil => exact le_refl _
  | cons a rest ih =>
    rw [countMissing, countMissing]
    by_cases ha : a ∈ seen
    · rw [if_pos ha, if_pos (List.mem_append_left _ ha)]
      omega
    · by_cases ha2 : a ∈ seen ++ ext
      · rw [if_pos ha2, if_neg ha]
        omega
      · rw [if_neg ha2, if_neg ha]
        omega

theorem countMissing_lt {α : Type} [DecidableEq α] :
    ∀ (univ seen : List α) (a : α), a ∈ univ → ¬ a ∈ seen →
      countMissing univ (seen ++ [a]) < countMissing univ seen := by
  intro univ
  induction univ with
  | nil =>
    intro seen a ha _
    cases ha
  | cons b rest ih =>
    intro seen a ha hs
    rw [countMissing, countMissing]
    rcases List.mem_cons.mp ha with h1 | h2
    · subst h1
      rw [if_neg hs, if_pos (List.mem_append_right _ (List.mem_singleton_self a))]
      have := countMissing_le rest seen [a]
      omega
    · by_cases hb : b ∈ seen
      · rw [if_pos hb, if_pos (List.mem_append_left _ hb)]
        have := ih seen a h2 hs
        omega
      · by_cases hb2 : b ∈ seen ++ [a]
        · rw [if_pos hb2, if_neg hb]
          have := countMissing_le rest seen [a]
          omega
        · rw [if_neg hb2, if_neg hb]
          have := ih seen a h2 hs
          omega

theorem foldl_inv_le {σ α : Type} (P : σ → Prop) (μ : σ → Nat) (g : σ → α → σ) :
    ∀ (xs : List α), (∀ s a, a ∈ xs → P s → P (g s a) ∧ μ (g s a) ≤ μ s) →
      ∀ s, P s → P (List.foldl g s xs) ∧ μ (List.foldl g s xs) ≤ μ s := by
  intro xs
  induction xs with
  | nil =>
    intro _ s hs
    exact ⟨hs, le_refl _⟩
  | cons a rest ih =>
    intro h s hs
    obtain ⟨h1, h2⟩ := h s a (List.mem_cons_self _ _) hs
    obtain ⟨h3, h4⟩ := ih (fun s' a' ha' hs' => h s' a' (List.mem_cons_of_mem _ ha') hs') _ h1
    exact ⟨h3, le_trans h4 h2⟩

theorem procInc_step [DecidableEq N] (w : World N) (ips : List N) (allN : List N)
    (allF : List String)
    (HN : ∀ d f n, w.find_resource d f = some n → n ∈ allN)
    (st : PState N) (x : String) (hx : x ∈ allF) (hi : InvT w allN st) :
    InvT w allN (procInc w ips st x) ∧
    scanMeasure allN allF (procInc w ips st x) ≤ scanMeasure allN allF st := by
  obtain ⟨hdc, hnc, hwait, hsubm, hsch, hndN, hndS⟩ := hi
  rw [procInc]
  by_cases hxs : x ∈ st.seenS
  · rw [if_pos hxs]
    exact ⟨⟨hdc, hnc, hwait, hsubm, hsch, hndN, hndS⟩, le_refl _⟩
  · rw [if_neg hxs]
    have hc₁ : nodeCacheOK w
        { st with seenS := st.seenS ++ [x], scheduled := st.scheduled ++ [x] } := hnc
    rw [tryfind_header]
    obtain ⟨g0, g1, g2, g3, g4, g5, g6, g7⟩ := tryfindGo_spec w x ips _ hc₁
    have hdc' : depsCacheOK w
        (tryfindGo w x ips { st with seenS := st.seenS ++ [x], scheduled := st.scheduled ++ [x] }) := by
      intro m dm hm
      rw [g3] at hm
      exact hdc m dm hm
    have hsubm' :
        (tryfindGo w x ips { st with seenS := st.seenS ++ [x], scheduled := st.scheduled ++ [x] }).submitted =
        (tryfindGo w x ips { st with seenS := st.seenS ++ [x], scheduled := st.scheduled ++ [x] }).seenN := by
      rw [g5, g1]
      exact hsubm
    have hsch' :
        (tryfindGo w x ips { st with seenS := st.seenS ++ [x], scheduled := st.scheduled ++ [x] }).scheduled =
        (tryfindGo w x ips { st with seenS := st.seenS ++ [x], scheduled := st.scheduled ++ [x] }).seenS := by
      rw [g6, g2]
      show st.scheduled ++ [x] = st.seenS ++ [x]
      rw [hsch]
    have hndN' :
        (tryfindGo w x ips { st with seenS := st.seenS ++ [x], scheduled := st.scheduled ++ [x] }).seenN.Nodup := by
      rw [g1]
      exact hndN
    have hndS' :
        (tryfindGo w x ips { st with seenS := st.seenS ++ [x], scheduled := st.scheduled ++ [x] }).seenS.Nodup := by
      rw [g2]
      show (st.seenS ++ [x]).Nodup
      exact nodup_snoc _ _ hndS hxs
    cases hres : firstResolve w ips x with
    | some n =>
      rw [hres] at g7
      refine ⟨⟨hdc', g0, ?_, hsubm', hsch', hndN', hndS'⟩, ?_⟩
      · intro m hm
        rw [g7.2.1] at hm
        rcases List.mem_append.mp hm with hm1 | hm2
        · exact hwait m hm1
        · rw [List.mem_singleton] at hm2
          obtain ⟨d, hd, hrr⟩ := firstResolve_mem w x ips n hres
          rw [hm2]
          exact HN d x n hrr
      · simp only [scanMeasure]
        rw [g1, g2, g7.2.1]
        show 2 * countMissing allN st.seenN + 2 * countMissing allF (st.seenS ++ [x]) +
          (st.waiting ++ [n]).length ≤
          2 * countMissing allN st.seenN + 2 * countMissing allF st.seenS + st.waiting.length
        have hlt := countMissing_lt allF st.seenS x hx hxs
        rw [List.length_append]
        simp only [List.length_singleton]
        omega
    | none =>
      rw [hres] at g7
      refine ⟨⟨hdc', g0, ?_, hsubm', hsch', hndN', hndS'⟩, ?_⟩
      · intro m hm
        rw [g7.2.1] at hm
        exact hwait m hm
      · simp only [scanMeasure]
        rw [g1, g2, g7.2.1]
        show 2 * countMissing allN st.seenN + 2 * countMissing allF (st.seenS ++ [x]) +
          st.waiting.length ≤
          2 * countMissing allN st.seenN + 2 * countMissing allF st.seenS + st.waiting.length
        have hlt := countMissing_lt allF st.seenS x hx hxs
        omega

theorem procUse_step [DecidableEq N] (w : World N) (allN : List N) (allF : List String)
    (st : PState N) (x : String) (hi : InvT w allN st) :
    InvT w allN (procUse N st x) ∧
    scanMeasure allN allF (procUse N st x) ≤ scanMeasure allN allF st := by
  obtain ⟨hdc, hnc, hwait, hsubm, hsch, hndN, hndS⟩ := hi
  simp only [procUse]
  by_cases hx : ("USE@" ++ x) ∈ st.names
  · rw [if_pos hx]
    exact ⟨⟨hdc, hnc, hwait, hsubm, hsch, hndN, hndS⟩, le_refl _⟩
  · rw [if_neg hx]
    exact ⟨⟨hdc, hnc, hwait, hsubm, hsch, hndN, hndS⟩, le_refl _⟩

theorem procMod_step [DecidableEq N] (w : World N) (allN : List N) (allF : List String)
    (st : PState N) (x : String) (hi : InvT w allN st) :
    InvT w allN (procMod N st x) ∧
    scanMeasure allN allF (procMod N st x) ≤ scanMeasure allN allF st := by
  obtain ⟨hdc, hnc, hwait, hsubm, hsch, hndN, hndS⟩ := hi
  simp only [procMod]
  by_cases hx : ("MOD@" ++ x) ∈ st.names
  · rw [if_pos hx]
    exact ⟨⟨hdc, hnc, hwait, hsubm, hsch, hndN, hndS⟩, le_refl _⟩
  · rw [if_neg hx]
    exact ⟨⟨hdc, hnc, hwait, hsubm, hsch, hndN, hndS⟩, le_refl _⟩

theorem iter_step [DecidableEq N] (w : World N) (ips : List N) (allN : List N)
    (allF : List String)
    (HN : ∀ d f n, w.find_resource d f = some n → n ∈ allN)
    (HF : ∀ n txt, w.read n = some txt → ∀ x ∈ (extractDeps txt).incs, x ∈ allF)
    (HR : ∀ n, ∃ txt, w.read n = some txt)
    (nd : N) (st : PState N) (hndAll : nd ∈ allN) (hi : InvT w allN st) :
    ∃ st', iter w ips nd st = .ok st' ∧ InvT w allN st' ∧
      (¬ nd ∈ st.seenN → scanMeasure allN allF st' + 2 ≤ scanMeasure allN allF st) ∧
      (nd ∈ st.seenN → st' = st) := by
  by_cases hseen : nd ∈ st.seenN
  · refine ⟨st, ?_, hi, fun hc => absurd hseen hc, fun _ => rfl⟩
    rw [iter, if_pos hseen]
  · obtain ⟨txt, htxt⟩ := HR nd
    obtain ⟨hdc, hnc, hwait, hsubm, hsch, hndN, hndS⟩ := hi
    cases hfd : find_deps w nd { st with submitted := st.submitted ++ [nd] } with
    | error e =>
      have := fd_error_read w nd _ e hfd
      rw [htxt] at this
      cases this
    | ok p =>
      obtain ⟨deps, st₁⟩ := p
      have hfr := fd_ok_frame w nd _ deps st₁ hfd
      have e1 : st₁.seenN = st.seenN := hfr.1
      have e2 : st₁.seenS = st.seenS := hfr.2.1
      have e5 : st₁.waiting = st.waiting := hfr.2.2.2.2.1
      have e6 : st₁.nodeCache = st.nodeCache := hfr.2.2.2.2.2.1
      have e8 : st₁.submitted = st.submitted ++ [nd] := hfr.2.2.2.2.2.2.2.1
      have e9 : st₁.scheduled = st.scheduled := hfr.2.2.2.2.2.2.2.2
      have hdeps : deps = extractDeps txt :=
        fd_ok_val w nd { st with submitted := st.submitted ++ [nd] } txt deps st₁
          (fun m dm hm => hdc m dm hm) htxt hfd
      have hi₂ : InvT w allN { st₁ with seenN := st₁.seenN ++ [nd] } := by
        refine ⟨?_, ?_, ?_, ?_, ?_, ?_, ?_⟩
        · intro m dm hm
          exact fd_depsOK w nd _ deps st₁ hfd (fun m' dm' hm' => hdc m' dm' hm') m dm hm
        · intro d' f' v' hl
          rw [show ({ st₁ with seenN := st₁.seenN ++ [nd] } : PState N).nodeCache
              = st₁.nodeCache from rfl, e6] at hl
          exact hnc d' f' v' hl
        · intro m hm
          rw [show ({ st₁ with seenN := st₁.seenN ++ [nd] } : PState N).waiting
              = st₁.waiting from rfl, e5] at hm
          exact hwait m hm
        · show st₁.submitted = st₁.seenN ++ [nd]
          rw [e8, e1, hsubm]
        · show st₁.scheduled = st₁.seenS
          rw [e9, e2]
          exact hsch
        · show (st₁.seenN ++ [nd]).Nodup
          rw [e1]
          exact nodup_snoc _ _ hndN hseen
        · show st₁.seenS.Nodup
          rw [e2]
          exact hndS
      have hμ₂ : scanMeasure allN allF { st₁ with seenN := st₁.seenN ++ [nd] } + 2 ≤
          scanMeasure allN allF st := by
        have hgoal : scanMeasure allN allF { st₁ with seenN := st₁.seenN ++ [nd] } =
            2 * countMissing allN (st.seenN ++ [nd]) + 2 * countMissing allF st.seenS +
              st.waiting.length := by
          show 2 * countMissing allN (st₁.seenN ++ [nd]) + 2 * countMissing allF st₁.seenS +
            st₁.waiting.length = _
          rw [e1, e2, e5]
        rw [hgoal]
        show _ ≤ 2 * countMissing allN st.seenN + 2 * countMissing allF st.seenS +
          st.waiting.length
        have hlt := countMissing_lt allN st.seenN nd hndAll hseen
        omega
      have hx : ∀ x ∈ deps.incs, x ∈ allF := by
        rw [hdeps]
        exact HF nd txt htxt
      obtain ⟨hi₃, hμ₃⟩ := foldl_inv_le (InvT w allN) (scanMeasure allN allF)
        (procInc w ips) deps.incs
        (fun s a ha hs => procInc_step w ips allN allF HN s a (hx a ha) hs) _ hi₂
      obtain ⟨hi₄, hμ₄⟩ := foldl_inv_le (InvT w allN) (scanMeasure allN allF)
        (procUse N) deps.uses
        (fun s a _ hs => procUse_step w allN allF s a hs) _ hi₃
      obtain ⟨hi₅, hμ₅⟩ := foldl_inv_le (InvT w allN) (scanMeasure allN allF)
        (procMod N) deps.mods
        (fun s a _ hs => procMod_step w allN allF s a hs) _ hi₄
      refine ⟨_, ?_, hi₅, fun _ => by omega, fun hc => absurd hc hseen⟩
      rw [iter, if_neg hseen, hfd]

theorem runLoop_term [DecidableEq N] (w : World N) (ips : List N) (allN : List N)
    (allF : List String)
    (HN : ∀ d f n, w.find_resource d f = some n → n ∈ allN)
    (HF : ∀ n txt, w.read n = some txt → ∀ x ∈ (extractDeps txt).incs, x ∈ allF)
    (HR : ∀ n, ∃ txt, w.read n = some txt) :
    ∀ (fuel : Nat) (st : PState N), InvT w allN st → scanMeasure allN allF st ≤ fuel →
      isDone (runLoop w ips fuel st) = true ∧ InvT w allN (resSt (runLoop w ips fuel st)) := by
  intro fuel
  induction fuel with
  | zero =>
    intro st hi hm
    rw [runLoop]
    cases hw : st.waiting with
    | nil => exact ⟨rfl, hi⟩
    | cons nd rest =>
      exfalso
      have hlen : st.waiting.length ≤ scanMeasure allN allF st := by
        simp only [scanMeasure]
        omega
      rw [hw] at hlen
      simp only [List.length_cons] at hlen
      omega
  | succ fuel ih =>
    intro st hi hm
    rw [runLoop]
    cases hw : st.waiting with
    | nil => exact ⟨rfl, hi⟩
    | cons nd rest =>
      dsimp
      have hndAll : nd ∈ allN := hi.2.2.1 nd (by rw [hw]; exact List.mem_cons_self _ _)
      have hip : InvT w allN { st with waiting := rest } := by
        obtain ⟨hdc, hnc, hwait, hsubm, hsch, hndN, hndS⟩ := hi
        refine ⟨hdc, hnc, ?_, hsubm, hsch, hndN, hndS⟩
        intro m hm'
        exact hwait m (by rw [hw]; exact List.mem_cons_of_mem _ hm')
      obtain ⟨st', hiter, hist', hmeas, hmeq⟩ :=
        iter_step w ips allN allF HN HF HR nd _ hndAll hip
      rw [hiter]
      have hμp : scanMeasure allN allF { st with waiting := rest } + 1 =
          scanMeasure allN allF st := by
        simp only [scanMeasure]
        show 2 * countMissing allN st.seenN + 2 * countMissing allF st.seenS +
          rest.length + 1 = _
        rw [hw]
        simp only [List.length_cons]
        omega
      by_cases hseen : nd ∈ ({ st with waiting := rest } : PState N).seenN
      · have heq := hmeq hseen
        apply ih st' hist'
        rw [heq]
        omega
      · have hlt := hmeas hseen
        apply ih st' hist'
        omega

/-- Claim C6: for every finite include graph the traversal terminates —
with `allN` covering the root and every resolvable node and `allF`
covering every include filename extractable from any file, the worklist
loop reaches an empty `waiting` within `scanMeasure` steps, and each
file node is submitted to dependency extraction at most once and each
raw include filename is scheduled for resolution at most once (the
ghost `submitted` and `scheduled` logs are duplicate-free). -/
theorem claim_C6 [DecidableEq N] (w : World N) (ips : List N) (allN : List N)
    (allF : List String) (root : N)
    (HN : ∀ d f n, w.find_resource d f = some n → n ∈ allN)
    (HF : ∀ n txt, w.read n = some txt → ∀ x ∈ (extractDeps txt).incs, x ∈ allF)
    (HR : ∀ n, ∃ txt, w.read n = some txt)
    (hroot : root ∈ allN) :
    isDone (runLoop w ips (scanMeasure allN allF (initState N [] [] root))
      (initState N [] [] root)) = true ∧
    (resSt (runLoop w ips (scanMeasure allN allF (initState N [] [] root))
      (initState N [] [] root))).submitted.Nodup ∧
    (resSt (runLoop w ips (scanMeasure allN allF (initState N [] [] root))
      (initState N [] [] root))).scheduled.Nodup := by
  have h0 : InvT w allN (initState N [] [] root) := by
    refine ⟨?_, ?_, ?_, rfl, rfl, List.nodup_nil, List.nodup_nil⟩
    · intro m dm hm
      simp [initState, lruLookup] at hm
    · intro d f v hm
      simp [initState, lruLookup] at hm
    · intro m hm
      simp [initState] at hm
      rw [hm]
      exact hroot
  obtain ⟨hdone, hinv⟩ := runLoop_term w ips allN allF HN HF HR _ _ h0 (le_refl _)
  obtain ⟨_, _, _, hsubm, hsch, hndN, hndS⟩ := hinv
  exact ⟨hdone, by rw [hsubm]; exact hndN, by rw [hsch]; exact hndS⟩

/-- Witness for claim C6 at the cyclic world `w6` (nodes 0 and 1
including each other): the traversal completes and extracts each node
and each filename at most once. -/
theorem claim_C6_witness :
    isDone (runLoop w6 [9] (scanMeasure [0, 1] ["a.f", "b.f"] (initState Nat [] [] 0))
      (initState Nat [] [] 0)) = true ∧
    (resSt (runLoop w6 [9] (scanMeasure [0, 1] ["a.f", "b.f"] (initState Nat [] [] 0))
      (initState Nat [] [] 0))).submitted.Nodup ∧
    (resSt (runLoop w6 [9] (scanMeasure [0, 1] ["a.f", "b.f"] (initState Nat [] [] 0))
      (initState Nat [] [] 0))).scheduled.Nodup :=
  claim_C6 w6 [9] [0, 1] ["a.f", "b.f"] 0
    (by
      intro d f n h
      dsimp only [w6] at h
      split_ifs at h with h1 h2
      · injection h with h'
        rw [← h']
        decide
      · injection h with h'
        rw [← h']
        decide)
    (by
      intro n txt h
      dsimp only [w6] at h
      split_ifs at h with h1 h2 <;> injection h with h' <;> rw [← h'] <;> decide)
    (by
      intro n
      dsimp only [w6]
      split_ifs <;> exact ⟨_, rfl⟩)
    (by decide)

theorem word_lower (c : Char) (h : isWordC c = true) :
    (48 ≤ toLowerNat c ∧ toLowerNat c ≤ 57) ∨ (97 ≤ toLowerNat c ∧ toLowerNat c ≤ 122) ∨
    toLowerNat c = 95 := by
  simp [isWordC] at h
  simp only [toLowerNat]
  split_ifs <;> omega

theorem nonword_lower (d : Char) (hd : isWordC d = false) :
    ¬ ((48 ≤ toLowerNat d ∧ toLowerNat d ≤ 57) ∨ (97 ≤ toLowerNat d ∧ toLowerNat d ≤ 122) ∨
       toLowerNat d = 95) := by
  simp [isWordC] at hd
  simp only [toLowerNat]
  split_ifs <;> omega

theorem eqI_word_nonword (c d : Char) (hc : isWordC c = true) (hd : isWordC d = false) :
    eqI c d = false := by
  have h1 := word_lower c hc
  have h2 := nonword_lower d hd
  simp [eqI]
  omega

theorem isSpaceC_eq_false_of_word (c : Char) (hc : isWordC c = true) : isSpaceC c = false := by
  simp [isWordC] at hc
  simp [isSpaceC]
  omega

theorem word_ne_nl (c : Char) (hc : isWordC c = true) : ¬ c.toNat = 10 := by
  simp [isWordC] at hc
  omega

theorem eqI_shift (a b d : Char) (h : eqI a b = true) (hne : ¬ toLowerNat b = toLowerNat d) :
    eqI a d = false := by
  simp [eqI] at h ⊢
  omega

theorem isWordC_of_eqI (a b : Char) (hb : isWordC b = true) (h : eqI a b = true) :
    isWordC a = true := by
  simp [eqI, toLowerNat] at h
  simp [isWordC] at hb ⊢
  split_ifs at h <;> omega

theorem starResults_none (p : Char → Bool) (prev : Option Char) (s : List Char)
    (h : ∀ c, s.head? = some c → p c = false) : starResults p prev s = [(prev, s)] := by
  cases s with
  | nil => rfl
  | cons a rest => simp [starResults, h a rfl]

theorem starResults_ne_nil (p : Char → Bool) :
    ∀ (s : List Char) (prev : Option Char), starResults p prev s ≠ [] := by
  intro s
  induction s with
  | nil => intro prev h; cases h
  | cons a rest ih =>
    intro prev
    by_cases hpa : p a = true <;> simp [starResults, hpa]

theorem lastOr_cons (prev : Option Char) (a : Char) (rest : List Char) :
    lastOr prev (a :: rest) = lastOr (some a) rest := rfl

theorem starResults_head_all (p : Char → Bool) :
    ∀ (s : List Char) (prev : Option Char), (∀ c ∈ s, p c = true) →
      (starResults p prev s).head? = some (lastOr prev s, []) := by
  intro s
  induction s with
  | nil => intro prev _; rfl
  | cons a rest ih =>
    intro prev h
    have hpa : p a = true := h a (List.mem_cons_self _ _)
    rw [lastOr_cons]
    simp only [starResults, hpa, if_true]
    rw [List.head?_append]
    rw [ih (some a) (fun c hc => h c (List.mem_cons_of_mem _ hc))]
    rfl

theorem litStr_run :
    ∀ (cs : List Char) (prev : Option Char) (s : List Char),
      run (litStr cs) prev s =
        (if mpI cs s then [(lastOr prev (s.take cs.length), s.drop cs.length, none)]
         else []) := by
  intro cs
  induction cs with
  | nil =>
    intro prev s
    simp [litStr, run, mpI, lastOr]
  | cons c cs ih =>
    intro prev s
    cases s with
    | nil => simp [litStr, run, mpI]
    | cons a s' =>
      by_cases he : eqI a c = true
      · simp only [litStr, run, he, if_true, mpI]
        simp only [List.flatMap_cons, List.flatMap_nil, List.append_nil]
        rw [ih (some a) s']
        by_cases hm : mpI cs s' = true
        · rw [if_pos hm, if_pos (by rw [hm]; rfl)]
          simp [List.take, List.drop, lastOr, Option.orElse]
        · rw [if_neg hm, if_neg (by rw [Bool.not_eq_true] at hm; rw [hm]; simp)]
          simp
      · simp [litStr, run, he, mpI]

theorem run_eps (prev : Option Char) (s : List Char) : run .eps prev s = [(prev, s, none)] := rfl

theorem run_lit_nil (c : Char) (prev : Option Char) : run (.lit c) prev [] = [] := rfl

theorem run_lit_cons (c : Char) (prev : Option Char) (a : Char) (s : List Char) :
    run (.lit c) prev (a :: s) = (if eqI a c then [(some a, s, none)] else []) := rfl

theorem run_cls_nil (p : Char → Bool) (prev : Option Char) : run (.cls p) prev [] = [] := rfl

theorem run_cls_cons (p : Char → Bool) (prev : Option Char) (a : Char) (s : List Char) :
    run (.cls p) prev (a :: s) = (if p a then [(some a, s, none)] else []) := rfl

theorem run_cat (r₁ r₂ : RE) (prev : Option Char) (s : List Char) :
    run (.cat r₁ r₂) prev s =
      (run r₁ prev s).flatMap fun o₁ =>
        (run r₂ o₁.1 o₁.2.1).map fun o₂ => (o₂.1, o₂.2.1, o₁.2.2.orElse fun _ => o₂.2.2) := rfl

theorem run_alt (r₁ r₂ : RE) (prev : Option Char) (s : List Char) :
    run (.alt r₁ r₂) prev s = run r₁ prev s ++ run r₂ prev s := rfl

theorem run_starG (p : Char → Bool) (prev : Option Char) (s : List Char) :
    run (.starG p) prev s = (starResults p prev s).map fun o => (o.1, o.2, none) := rfl

theorem run_plusG (p : Char → Bool) (prev : Option Char) (s : List Char) :
    run (.plusG p) prev s = (plusGResults p prev s).map fun o => (o.1, o.2, none) := rfl

theorem run_plusL (p : Char → Bool) (prev : Option Char) (s : List Char) :
    run (.plusL p) prev s = (plusLResults p prev s).map fun o => (o.1, o.2, none) := rfl

theorem run_bol_none (s : List Char) : run .bol none s = [(none, s, none)] := rfl

theorem run_bol_some (c : Char) (s : List Char) :
    run .bol (some c) s = (if c.toNat = 10 then [(some c, s, none)] else []) := rfl

theorem run_nlook (r : RE) (prev : Option Char) (s : List Char) :
    run (.nlook r) prev s = (if (run r prev s).isEmpty then [(prev, s, none)] else []) := rfl

theorem run_look (r : RE) (prev : Option Char) (s : List Char) :
    run (.look r) prev s = (if (run r prev s).isEmpty then [] else [(prev, s, none)]) := rfl

theorem run_grp (r : RE) (prev : Option Char) (s : List Char) :
    run (.grp r) prev s =
      (run r prev s).map fun o => (o.1, o.2.1, some (s.take (s.length - o.2.1.length))) := rfl

theorem run_kw_nil (cs : List Char) (hcs : mpI cs [] = false) (r₂ : RE) (prev : Option Char) :
    run (.cat (.alt .bol (.lit ';')) (.cat (.starG isSpaceC) (.cat (litStr cs) r₂)))
      prev [] = [] := by
  cases prev with
  | none =>
    simp [run_cat, run_alt, run_bol_none, run_lit_nil, run_starG, starResults, litStr_run, hcs]
  | some c0 =>
    by_cases h : c0.toNat = 10 <;>
      simp [run_cat, run_alt, run_bol_some, run_lit_nil, run_starG, starResults, litStr_run,
        hcs, h]

theorem run_use_nil (prev : Option Char) : run re_use prev [] = [] :=
  run_kw_nil "USE".data (by decide) _ prev

theorem run_mod_nil (prev : Option Char) : run re_mod prev [] = [] :=
  run_kw_nil "MODULE".data (by decide) _ prev

theorem findallAux_nil_of_run (r : RE) (fuel : Nat) (prev : Option Char)
    (h : run r prev [] = []) : findallAux r fuel prev [] = [] := by
  cases fuel with
  | zero => rfl
  | succ fu => simp [findallAux, h]

theorem findallAux_succ_none (r : RE) (fuel : Nat) (prev : Option Char) (a : Char)
    (rest : List Char) (h : run r prev (a :: rest) = []) :
    findallAux r (fuel + 1) prev (a :: rest) = findallAux r fuel (some a) rest := by
  simp [findallAux, h]

theorem findallAux_succ_match (r : RE) (fuel : Nat) (prev : Option Char) (s : List Char)
    (p : Option Char) (s' : List Char) (g : Option (List Char))
    (h : (run r prev s).head? = some (p, s', g)) (hlt : s'.length < s.length) :
    findallAux r (fuel + 1) prev s = g.getD [] :: findallAux r fuel p s' := by
  simp only [findallAux, h]
  rw [if_neg (by omega)]

theorem run_anchor_fail (r₂ : RE) (prev : Option Char) (s : List Char) (hp : prevOK prev)
    (hh : ∀ c, s.head? = some c → eqI c ';' = false) :
    run (.cat (.alt .bol (.lit ';')) r₂) prev s = [] := by
  cases prev with
  | none => exact hp.elim
  | some c0 =>
    have h10 : ¬ c0.toNat = 10 := hp
    cases s with
    | nil => simp [run, h10]
    | cons a rest =>
      have ha := hh a rfl
      simp [run, h10, ha]

theorem run_use_fail (prev : Option Char) (s : List Char) (hp : prevOK prev)
    (hh : ∀ c, s.head? = some c → eqI c ';' = false) : run re_use prev s = [] :=
  run_anchor_fail _ prev s hp hh

theorem run_mod_fail (prev : Option Char) (s : List Char) (hp : prevOK prev)
    (hh : ∀ c, s.head? = some c → eqI c ';' = false) : run re_mod prev s = [] :=
  run_anchor_fail _ prev s hp hh

theorem findall_word_use :
    ∀ (fuel : Nat) (s : List Char) (prev : Option Char), (∀ c ∈ s, isWordC c = true) →
      prevOK prev → findallAux re_use fuel prev s = [] := by
  intro fuel
  induction fuel with
  | zero => intro s prev _ _; rfl
  | succ fu ih =>
    intro s prev hs hp
    cases s with
    | nil => exact findallAux_nil_of_run _ _ _ (run_use_nil prev)
    | cons a rest =>
      have hrun : run re_use prev (a :: rest) = [] := by
        refine run_use_fail prev (a :: rest) hp ?_
        intro c hc
        injection hc with hc'
        rw [← hc']
        exact eqI_word_nonword a ';' (hs a (List.mem_cons_self _ _)) (by decide)
      rw [findallAux_succ_none _ _ _ _ _ hrun]
      exact ih rest (some a) (fun c hc => hs c (List.mem_cons_of_mem _ hc))
        (word_ne_nl a (hs a (List.mem_cons_self _ _)))

theorem findall_word_mod :
    ∀ (fuel : Nat) (s : List Char) (prev : Option Char), (∀ c ∈ s, isWordC c = true) →
      prevOK prev → findallAux re_mod fuel prev s = [] := by
  intro fuel
  induction fuel with
  | zero => intro s prev _ _; rfl
  | succ fu ih =>
    intro s prev hs hp
    cases s with
    | nil => exact findallAux_nil_of_run _ _ _ (run_mod_nil prev)
    | cons a rest =>
      have hrun : run re_mod prev (a :: rest) = [] := by
        refine run_mod_fail prev (a :: rest) hp ?_
        intro c hc
        injection hc with hc'
        rw [← hc']
        exact eqI_word_nonword a ';' (hs a (List.mem_cons_self _ _)) (by decide)
      rw [findallAux_succ_none _ _ _ _ _ hrun]
      exact ih rest (some a) (fun c hc => hs c (List.mem_cons_of_mem _ hc))
        (word_ne_nl a (hs a (List.mem_cons_self _ _)))

theorem run_qualTail (p0 : Option Char) (wh : Char) (wt : List Char)
    (hwh : isWordC wh = true) :
    run qualTail p0 (' ' :: wh :: wt) = [(some ' ', wh :: wt, none)] := by
  have hswf : isSpaceC wh = false := isSpaceC_eq_false_of_word wh hwh
  have hsw : starResults isSpaceC (some ' ') (wh :: wt) = [(some ' ', wh :: wt)] :=
    starResults_none _ _ _ (fun c hc => by
      injection hc with hc'
      rw [← hc']
      exact hswf)
  have hdata : "::".data = [':', ':'] := rfl
  have hcomma : eqI wh ',' = false := eqI_word_nonword wh ',' hwh (by decide)
  have hcolonm : mpI [':', ':'] (wh :: wt) = false := by
    simp [mpI, eqI_word_nonword wh ':' hwh (by decide)]
  have hcolons : mpI [':', ':'] (' ' :: wh :: wt) = false := by
    simp [mpI, show eqI ' ' ':' = false from by decide]
  simp [qualTail, opt, run_alt, run_cat, run_plusG, run_starG, run_eps, run_lit_cons,
    litStr_run, plusGResults, starResults, hdata, hsw, hswf, hcomma, hcolonm, hcolons,
    show isSpaceC ' ' = true from by decide,
    show eqI ' ' ',' = false from by decide]

theorem run_tail_word (p0 : Option Char) (wh : Char) (wt : List Char)
    (hw : ∀ c ∈ wh :: wt, isWordC c = true) :
    run (.cat qualTail (.cat (.starG isSpaceC) (.grp (.plusG isWordC)))) p0
        (' ' :: wh :: wt) =
      (starResults isWordC (some wh) wt).map
        (fun o => (o.1, o.2, some ((wh :: wt).take (wt.length + 1 - o.2.length)))) := by
  have hwh : isWordC wh = true := hw wh (List.mem_cons_self _ _)
  have hswf : isSpaceC wh = false := isSpaceC_eq_false_of_word wh hwh
  have hsw : starResults isSpaceC (some ' ') (wh :: wt) = [(some ' ', wh :: wt)] :=
    starResults_none _ _ _ (fun c hc => by
      injection hc with hc'
      rw [← hc']
      exact hswf)
  rw [run_cat, run_qualTail p0 wh wt hwh]
  simp [run_cat, run_starG, run_grp, run_plusG, plusGResults, hsw, hwh,
    List.map_map, Option.orElse]

theorem mk_data (s : String) : String.mk s.data = s := rfl

theorem run_use_match (c₁ c₂ c₃ wh : Char) (wt : List Char)
    (h1 : eqI c₁ 'U' = true) (h2 : eqI c₂ 'S' = true) (h3 : eqI c₃ 'E' = true)
    (hw : ∀ c ∈ wh :: wt, isWordC c = true) :
    run re_use none (c₁ :: c₂ :: c₃ :: ' ' :: wh :: wt) =
      (starResults isWordC (some wh) wt).map
        (fun o => (o.1, o.2, some ((wh :: wt).take (wt.length + 1 - o.2.length)))) := by
  have hsemi : eqI c₁ ';' = false := eqI_shift c₁ 'U' ';' h1 (by decide)
  have hw1 : isWordC c₁ = true := isWordC_of_eqI c₁ 'U' (by decide) h1
  have hsp1 : isSpaceC c₁ = false := isSpaceC_eq_false_of_word c₁ hw1
  have hmp : mpI "USE".data (c₁ :: c₂ :: c₃ :: ' ' :: wh :: wt) = true := by
    simp [show "USE".data = ['U', 'S', 'E'] from rfl, mpI, h1, h2, h3]
  have htail := run_tail_word (some c₃) wh wt hw
  have hanchor : run (.alt .bol (.lit ';')) none (c₁ :: c₂ :: c₃ :: ' ' :: wh :: wt) =
      [(none, c₁ :: c₂ :: c₃ :: ' ' :: wh :: wt, none)] := by
    simp [run_alt, run_bol_none, run_lit_cons, hsemi]
  have hstar : run (.starG isSpaceC) none (c₁ :: c₂ :: c₃ :: ' ' :: wh :: wt) =
      [(none, c₁ :: c₂ :: c₃ :: ' ' :: wh :: wt, none)] := by
    simp [run_starG, starResults, hsp1]
  have hkw : run (litStr "USE".data) none (c₁ :: c₂ :: c₃ :: ' ' :: wh :: wt) =
      [(some c₃, ' ' :: wh :: wt, none)] := by
    rw [litStr_run, if_pos hmp]
    simp [show "USE".data = ['U', 'S', 'E'] from rfl, lastOr]
  rw [show re_use = .cat (.alt .bol (.lit ';')) (.cat (.starG isSpaceC)
      (.cat (litStr "USE".data) (.cat qualTail (.cat (.starG isSpaceC)
      (.grp (.plusG isWordC)))))) from rfl]
  rw [run_cat, hanchor]
  simp only [List.flatMap_cons, List.flatMap_nil, List.append_nil]
  rw [run_cat, hstar]
  simp only [List.flatMap_cons, List.flatMap_nil, List.append_nil]
  rw [run_cat, hkw]
  simp only [List.flatMap_cons, List.flatMap_nil, List.append_nil]
  rw [htail]
  simp [List.map_map, Option.orElse]

theorem findall_use_core (c₁ c₂ c₃ wh : Char) (wt : List Char)
    (h1 : eqI c₁ 'U' = true) (h2 : eqI c₂ 'S' = true) (h3 : eqI c₃ 'E' = true)
    (hw : ∀ c ∈ wh :: wt, isWordC c = true) :
    findallAux re_use ((c₁ :: c₂ :: c₃ :: ' ' :: wh :: wt).length + 1) none
      (c₁ :: c₂ :: c₃ :: ' ' :: wh :: wt) = [wh :: wt] := by
  have hhead : (run re_use none (c₁ :: c₂ :: c₃ :: ' ' :: wh :: wt)).head? =
      some (lastOr (some wh) wt, [], some (wh :: wt)) := by
    rw [run_use_match c₁ c₂ c₃ wh wt h1 h2 h3 hw]
    rw [List.head?_map]
    rw [starResults_head_all isWordC wt (some wh)
      (fun c hc => hw c (List.mem_cons_of_mem _ hc))]
    simp
  rw [findallAux_succ_match re_use _ none _ _ [] _ hhead (by simp)]
  rw [findallAux_nil_of_run _ _ _ (run_use_nil _)]
  rfl

/-- Claim C5: directive-keyword matching is case-insensitive while the
captured identifier is passed through verbatim — for every nonempty
identifier `w` made of word characters, the inputs `use w`, `USE w` and
`Use w` each produce exactly the used-module capture `w`, preserved
exactly as written (no case folding or trimming of the capture). -/
theorem claim_C5 (w : String) (hne : w.data ≠ []) (hw : ∀ c ∈ w.data, isWordC c = true) :
    findall re_use ("use " ++ w) = [w] ∧
    findall re_use ("USE " ++ w) = [w] ∧
    findall re_use ("Use " ++ w) = [w] := by
  obtain ⟨wh, wt, hwdata⟩ : ∃ wh wt, w.data = wh :: wt := by
    cases hd : w.data with
    | nil => exact absurd hd hne
    | cons a l => exact ⟨a, l, rfl⟩
  have hw' : ∀ c ∈ wh :: wt, isWordC c = true := fun c hc =>
    hw c (by rw [hwdata]; exact hc)
  have hmk : String.mk (wh :: wt) = w := by rw [← hwdata]
  refine ⟨?_, ?_, ?_⟩
  · have key := findall_use_core 'u' 's' 'e' wh wt (by decide) (by decide) (by decide) hw'
    rw [findall, String.data_append, show "use ".data = ['u', 's', 'e', ' '] from rfl,
      hwdata]
    simp only [List.cons_append, List.nil_append] at key ⊢
    rw [key]
    rw [List.map_cons, List.map_nil, hmk]
  · have key := findall_use_core 'U' 'S' 'E' wh wt (by decide) (by decide) (by decide) hw'
    rw [findall, String.data_append, show "USE ".data = ['U', 'S', 'E', ' '] from rfl,
      hwdata]
    simp only [List.cons_append, List.nil_append] at key ⊢
    rw [key]
    rw [List.map_cons, List.map_nil, hmk]
  · have key := findall_use_core 'U' 's' 'e' wh wt (by decide) (by decide) (by decide) hw'
    rw [findall, String.data_append, show "Use ".data = ['U', 's', 'e', ' '] from rfl,
      hwdata]
    simp only [List.cons_append, List.nil_append] at key ⊢
    rw [key]
    rw [List.map_cons, List.map_nil, hmk]

/-- Witness for claim C5 at the identifier `Foo`. -/
theorem claim_C5_witness :
    findall re_use ("use " ++ "Foo") = ["Foo"] ∧
    findall re_use ("USE " ++ "Foo") = ["Foo"] ∧
    findall re_use ("Use " ++ "Foo") = ["Foo"] :=
  claim_C5 "Foo" (by decide) (by decide)

theorem findallAux_step_none (r : RE) (fuel : Nat) (hf : ¬ fuel = 0) (prev : Option Char)
    (a : Char) (rest : List Char) (h : run r prev (a :: rest) = []) :
    findallAux r fuel prev (a :: rest) = findallAux r (fuel - 1) (some a) rest := by
  cases fuel with
  | zero => exact absurd rfl hf
  | succ fu =>
    rw [findallAux_succ_none _ _ _ _ _ h]
    simp

theorem run_mod_match (wh : Char) (wt : List Char)
    (hw : ∀ c ∈ wh :: wt, isWordC c = true)
    (hproc : mpI "PROCEDURE".data (wh :: wt) = false) :
    run re_mod none ('m' :: 'o' :: 'd' :: 'u' :: 'l' :: 'e' :: ' ' :: wh :: wt) =
      (starResults isWordC (some wh) wt).map
        (fun o => (o.1, o.2, some ((wh :: wt).take (wt.length + 1 - o.2.length)))) := by
  have hwh : isWordC wh = true := hw wh (List.mem_cons_self _ _)
  have hswf : isSpaceC wh = false := isSpaceC_eq_false_of_word wh hwh
  have htail := run_tail_word (some 'e') wh wt hw
  have hanchor : run (.alt .bol (.lit ';')) none
      ('m' :: 'o' :: 'd' :: 'u' :: 'l' :: 'e' :: ' ' :: wh :: wt) =
      [(none, 'm' :: 'o' :: 'd' :: 'u' :: 'l' :: 'e' :: ' ' :: wh :: wt, none)] := by
    simp [run_alt, run_bol_none, run_lit_cons, show eqI 'm' ';' = false from by decide]
  have hstar : run (.starG isSpaceC) none
      ('m' :: 'o' :: 'd' :: 'u' :: 'l' :: 'e' :: ' ' :: wh :: wt) =
      [(none, 'm' :: 'o' :: 'd' :: 'u' :: 'l' :: 'e' :: ' ' :: wh :: wt, none)] := by
    simp [run_starG, starResults, show isSpaceC 'm' = false from by decide]
  have hmp : mpI "MODULE".data ('m' :: 'o' :: 'd' :: 'u' :: 'l' :: 'e' :: ' ' :: wh :: wt) =
      true := by
    simp +decide [show "MODULE".data = ['M', 'O', 'D', 'U', 'L', 'E'] from rfl, mpI]
  have hkw : run (litStr "MODULE".data) none
      ('m' :: 'o' :: 'd' :: 'u' :: 'l' :: 'e' :: ' ' :: wh :: wt) =
      [(some 'e', ' ' :: wh :: wt, none)] := by
    rw [litStr_run, if_pos hmp]
    simp [show "MODULE".data = ['M', 'O', 'D', 'U', 'L', 'E'] from rfl, lastOr]
  have hinner : run (.cat (.starG isSpaceC) (litStr "PROCEDURE".data)) (some 'e')
      (' ' :: wh :: wt) = [] := by
    have hsw : starResults isSpaceC (some ' ') (wh :: wt) = [(some ' ', wh :: wt)] :=
      starResults_none _ _ _ (fun c hc => by
        injection hc with hc'
        rw [← hc']
        exact hswf)
    have hproc2 : mpI ['P', 'R', 'O', 'C', 'E', 'D', 'U', 'R', 'E'] (wh :: wt) = false := hproc
    rw [run_cat, run_starG]
    simp [starResults, hsw, hswf, show isSpaceC ' ' = true from by decide, litStr_run,
      hproc, hproc2,
      show "PROCEDURE".data = ['P', 'R', 'O', 'C', 'E', 'D', 'U', 'R', 'E'] from rfl,
      show mpI ['P', 'R', 'O', 'C', 'E', 'D', 'U', 'R', 'E'] (' ' :: wh :: wt) = false from by
        simp [mpI, show eqI ' ' 'P' = false from by decide]]
  have hnlook : run (.nlook (.cat (.starG isSpaceC) (litStr "PROCEDURE".data))) (some 'e')
      (' ' :: wh :: wt) = [(some 'e', ' ' :: wh :: wt, none)] := by
    rw [run_nlook, if_pos (by rw [hinner]; rfl)]
  rw [show re_mod = .cat (.alt .bol (.lit ';')) (.cat (.starG isSpaceC)
      (.cat (litStr "MODULE".data) (.cat (.nlook (.cat (.starG isSpaceC)
      (litStr "PROCEDURE".data))) (.cat qualTail (.cat (.starG isSpaceC)
      (.grp (.plusG isWordC))))))) from rfl]
  rw [run_cat, hanchor]
  simp only [List.flatMap_cons, List.flatMap_nil, List.append_nil]
  rw [run_cat, hstar]
  simp only [List.flatMap_cons, List.flatMap_nil, List.append_nil]
  rw [run_cat, hkw]
  simp only [List.flatMap_cons, List.flatMap_nil, List.append_nil]
  rw [run_cat, hnlook]
  simp only [List.flatMap_cons, List.flatMap_nil, List.append_nil]
  rw [htail]
  simp [List.map_map, Option.orElse]

theorem run_mod_proc0 (u : List Char) :
    run re_mod none ('m' :: 'o' :: 'd' :: 'u' :: 'l' :: 'e' :: ' ' :: 'p' :: 'r' :: 'o' ::
      'c' :: 'e' :: 'd' :: 'u' :: 'r' :: 'e' :: u) = [] := by
  have hanchor : run (.alt .bol (.lit ';')) none
      ('m' :: 'o' :: 'd' :: 'u' :: 'l' :: 'e' :: ' ' :: 'p' :: 'r' :: 'o' ::
        'c' :: 'e' :: 'd' :: 'u' :: 'r' :: 'e' :: u) =
      [(none, 'm' :: 'o' :: 'd' :: 'u' :: 'l' :: 'e' :: ' ' :: 'p' :: 'r' :: 'o' ::
        'c' :: 'e' :: 'd' :: 'u' :: 'r' :: 'e' :: u, none)] := by
    simp [run_alt, run_bol_none, run_lit_cons, show eqI 'm' ';' = false from by decide]
  have hstar : run (.starG isSpaceC) none
      ('m' :: 'o' :: 'd' :: 'u' :: 'l' :: 'e' :: ' ' :: 'p' :: 'r' :: 'o' ::
        'c' :: 'e' :: 'd' :: 'u' :: 'r' :: 'e' :: u) =
      [(none, 'm' :: 'o' :: 'd' :: 'u' :: 'l' :: 'e' :: ' ' :: 'p' :: 'r' :: 'o' ::
        'c' :: 'e' :: 'd' :: 'u' :: 'r' :: 'e' :: u, none)] := by
    simp [run_starG, starResults, show isSpaceC 'm' = false from by decide]
  have hmp : mpI "MODULE".data ('m' :: 'o' :: 'd' :: 'u' :: 'l' :: 'e' :: ' ' :: 'p' ::
      'r' :: 'o' :: 'c' :: 'e' :: 'd' :: 'u' :: 'r' :: 'e' :: u) = true := by
    simp +decide [show "MODULE".data = ['M', 'O', 'D', 'U', 'L', 'E'] from rfl, mpI]
  have hkw : run (litStr "MODULE".data) none
      ('m' :: 'o' :: 'd' :: 'u' :: 'l' :: 'e' :: ' ' :: 'p' :: 'r' :: 'o' ::
        'c' :: 'e' :: 'd' :: 'u' :: 'r' :: 'e' :: u) =
      [(some 'e', ' ' :: 'p' :: 'r' :: 'o' :: 'c' :: 'e' :: 'd' :: 'u' :: 'r' :: 'e' :: u,
        none)] := by
    rw [litStr_run, if_pos hmp]
    simp [show "MODULE".data = ['M', 'O', 'D', 'U', 'L', 'E'] from rfl, lastOr]
  have hinner : run (.cat (.starG isSpaceC) (litStr "PROCEDURE".data)) (some 'e')
      (' ' :: 'p' :: 'r' :: 'o' :: 'c' :: 'e' :: 'd' :: 'u' :: 'r' :: 'e' :: u) =
      [(some 'e', u, none)] := by
    rw [run_cat, run_starG]
    simp +decide [starResults, litStr_run, mpI, lastOr,
      show "PROCEDURE".data = ['P', 'R', 'O', 'C', 'E', 'D', 'U', 'R', 'E'] from rfl]
  rw [show re_mod = .cat (.alt .bol (.lit ';')) (.cat (.starG isSpaceC)
      (.cat (litStr "MODULE".data) (.cat (.nlook (.cat (.starG isSpaceC)
      (litStr "PROCEDURE".data))) (.cat qualTail (.cat (.starG isSpaceC)
      (.grp (.plusG isWordC))))))) from rfl]
  rw [run_cat, hanchor]
  simp only [List.flatMap_cons, List.flatMap_nil, List.append_nil]
  rw [run_cat, hstar]
  simp only [List.flatMap_cons, List.flatMap_nil, List.append_nil]
  rw [run_cat, hkw]
  simp only [List.flatMap_cons, List.flatMap_nil, List.append_nil]
  rw [run_cat, run_nlook, if_neg (by rw [hinner]; simp)]
  simp

theorem findall_mod_core (wh : Char) (wt : List Char)
    (hw : ∀ c ∈ wh :: wt, isWordC c = true)
    (hproc : mpI "PROCEDURE".data (wh :: wt) = false) :
    findallAux re_mod (('m' :: 'o' :: 'd' :: 'u' :: 'l' :: 'e' :: ' ' :: wh :: wt).length + 1)
      none ('m' :: 'o' :: 'd' :: 'u' :: 'l' :: 'e' :: ' ' :: wh :: wt) = [wh :: wt] := by
  have hhead : (run re_mod none ('m' :: 'o' :: 'd' :: 'u' :: 'l' :: 'e' :: ' ' :: wh :: wt)).head? =
      some (lastOr (some wh) wt, [], some (wh :: wt)) := by
    rw [run_mod_match wh wt hw hproc]
    rw [List.head?_map]
    rw [starResults_head_all isWordC wt (some wh)
      (fun c hc => hw c (List.mem_cons_of_mem _ hc))]
    simp
  rw [findallAux_succ_match re_mod _ none _ _ [] _ hhead (by simp)]
  rw [findallAux_nil_of_run _ _ _ (run_mod_nil _)]
  rfl

/-- Claim C4: the module-provides rule never captures a name from a
statement where the module keyword is immediately followed by the word
procedure — for every nonempty identifier `w` of word characters that
does not itself begin with the word procedure, the text
`module procedure w` contributes no provided-module capture, while the
text `module w` contributes exactly the capture `w`. -/
theorem claim_C4 (w : String) (hne : w.data ≠ []) (hw : ∀ c ∈ w.data, isWordC c = true)
    (hproc : mpI "PROCEDURE".data w.data = false) :
    findall re_mod ("module procedure " ++ w) = [] ∧
    findall re_mod ("module " ++ w) = [w] := by
  obtain ⟨wh, wt, hwdata⟩ : ∃ wh wt, w.data = wh :: wt := by
    cases hd : w.data with
    | nil => exact absurd hd hne
    | cons a l => exact ⟨a, l, rfl⟩
  have hw' : ∀ c ∈ wh :: wt, isWordC c = true := fun c hc =>
    hw c (by rw [hwdata]; exact hc)
  have hproc' : mpI "PROCEDURE".data (wh :: wt) = false := by rw [← hwdata]; exact hproc
  have hmk : String.mk (wh :: wt) = w := by rw [← hwdata]
  constructor
  · rw [findall, String.data_append,
      show "module procedure ".data = ['m', 'o', 'd', 'u', 'l', 'e', ' ', 'p', 'r', 'o',
        'c', 'e', 'd', 'u', 'r', 'e', ' '] from rfl, hwdata]
    simp only [List.cons_append, List.nil_append]
    rw [findallAux_step_none _ _ (by simp) _ _ _ (run_mod_proc0 _)]
    rw [findallAux_step_none _ _ (by simp) _ _ _
      (run_mod_fail _ _ (by simp +decide [prevOK]) (fun c hc => by injection hc with hc'; rw [← hc']; decide))]
    rw [findallAux_step_none _ _ (by simp) _ _ _
      (run_mod_fail _ _ (by simp +decide [prevOK]) (fun c hc => by injection hc with hc'; rw [← hc']; decide))]
    rw [findallAux_step_none _ _ (by simp) _ _ _
      (run_mod_fail _ _ (by simp +decide [prevOK]) (fun c hc => by injection hc with hc'; rw [← hc']; decide))]
    rw [findallAux_step_none _ _ (by simp) _ _ _
      (run_mod_fail _ _ (by simp +decide [prevOK]) (fun c hc => by injection hc with hc'; rw [← hc']; decide))]
    rw [findallAux_step_none _ _ (by simp) _ _ _
      (run_mod_fail _ _ (by simp +decide [prevOK]) (fun c hc => by injection hc with hc'; rw [← hc']; decide))]
    rw [findallAux_step_none _ _ (by simp) _ _ _
      (run_mod_fail _ _ (by simp +decide [prevOK]) (fun c hc => by injection hc with hc'; rw [← hc']; decide))]
    rw [findallAux_step_none _ _ (by simp) _ _ _
      (run_mod_fail _ _ (by simp +decide [prevOK]) (fun c hc => by injection hc with hc'; rw [← hc']; decide))]
    rw [findallAux_step_none _ _ (by simp) _ _ _
      (run_mod_fail _ _ (by simp +decide [prevOK]) (fun c hc => by injection hc with hc'; rw [← hc']; decide))]
    rw [findallAux_step_none _ _ (by simp) _ _ _
      (run_mod_fail _ _ (by simp +decide [prevOK]) (fun c hc => by injection hc with hc'; rw [← hc']; decide))]
    rw [findallAux_step_none _ _ (by simp) _ _ _
      (run_mod_fail _ _ (by simp +decide [prevOK]) (fun c hc => by injection hc with hc'; rw [← hc']; decide))]
    rw [findallAux_step_none _ _ (by simp) _ _ _
      (run_mod_fail _ _ (by simp +decide [prevOK]) (fun c hc => by injection hc with hc'; rw [← hc']; decide))]
    rw [findallAux_step_none _ _ (by simp) _ _ _
      (run_mod_fail _ _ (by simp +decide [prevOK]) (fun c hc => by injection hc with hc'; rw [← hc']; decide))]
    rw [findallAux_step_none _ _ (by simp) _ _ _
      (run_mod_fail _ _ (by simp +decide [prevOK]) (fun c hc => by injection hc with hc'; rw [← hc']; decide))]
    rw [findallAux_step_none _ _ (by simp) _ _ _
      (run_mod_fail _ _ (by simp +decide [prevOK]) (fun c hc => by injection hc with hc'; rw [← hc']; decide))]
    rw [findallAux_step_none _ _ (by simp) _ _ _
      (run_mod_fail _ _ (by simp +decide [prevOK]) (fun c hc => by injection hc with hc'; rw [← hc']; decide))]
    rw [findallAux_step_none _ _ (by simp) _ _ _
      (run_mod_fail _ _ (by simp +decide [prevOK]) (fun c hc => by injection hc with hc'; rw [← hc']; decide))]
    rw [findall_word_mod _ _ _ hw' (by simp +decide [prevOK])]
    rfl
  · have key := findall_mod_core wh wt hw' hproc'
    rw [findall, String.data_append,
      show "module ".data = ['m', 'o', 'd', 'u', 'l', 'e', ' '] from rfl, hwdata]
    simp only [List.cons_append, List.nil_append] at key ⊢
    rw [key]
    rw [List.map_cons, List.map_nil, hmk]

/-- Witness for claim C4 at the identifier `bar`. -/
theorem claim_C4_witness :
    findall re_mod ("module procedure " ++ "bar") = [] ∧
    findall re_mod ("module " ++ "bar") = ["bar"] :=
  claim_C4 "bar" (by decide) (by decide) (by decide)

end FcScan
